import Mathlib

/-!
Verification development for the paper-search / deduplication core of
`Research_assistant_v1.py`.

The Python code is dynamically typed; records are dicts.  We embed the
fields that the deduplication and merging subsystem reads as a `Paper`
structure with `Option` fields (a missing dict key or `None` is `none`;
Python truthiness of a string field is "present and non-empty").
String operations are modelled over `List Char` with ASCII case folding,
matching the code's behaviour on the ASCII inputs it manipulates.
The `SequenceMatcher.ratio` similarity is an abstract parameter
`ratio : String → String → ℚ` of the clustering functions: the code
treats it as a black-box score in [0, 1].
-/

/-- Whitespace test used to model Python's `str.strip` (ASCII). -/
def isWs (c : Char) : Bool := c = ' ' || c = '\t' || c = '\n' || c = '\r'

/-- Model of Python `str.strip()`: drop whitespace from both ends. -/
def pyStrip (l : List Char) : List Char :=
  ((l.dropWhile isWs).reverse.dropWhile isWs).reverse

/-- Model of Python `str.lower()` on ASCII text. -/
def lowerL (l : List Char) : List Char := l.map Char.toLower

/-- Fuel-driven worker for `removeAll`; the fuel is an upper bound on the
length of the remaining text, so the recursion is structural. -/
def removeAllGo (pat : List Char) : Nat → List Char → List Char
  | _, [] => []
  | 0, s => s
  | fuel + 1, c :: cs =>
    if pat.isPrefixOf (c :: cs) then
      removeAllGo pat fuel ((c :: cs).drop pat.length)
    else
      c :: removeAllGo pat fuel cs

/-- Model of Python `str.replace(pat, "")` for a non-empty `pat`: remove all
non-overlapping occurrences of `pat`, scanning left to right.  An empty
pattern leaves the string unchanged (as `"x".replace("", "")` does). -/
def removeAll (pat s : List Char) : List Char :=
  if pat = [] then s else removeAllGo pat s.length s

/-- Word character of the regex `\w` (ASCII): alphanumeric or underscore. -/
def isWordChar (c : Char) : Bool := c.isAlphanum || c = '_'

/-- Worker for `squeezeWs`: `prevWs` records whether the previous character
was whitespace (so this one extends the same run). -/
def squeezeAux (prevWs : Bool) : List Char → List Char
  | [] => []
  | c :: cs =>
    if isWs c then
      (if prevWs then [] else [' ']) ++ squeezeAux true cs
    else c :: squeezeAux false cs

/-- Collapse every run of whitespace to one space, as
`re.sub(r"\s+", " ", text)` does. -/
def squeezeWs (l : List Char) : List Char := squeezeAux false l

/-- Keep-first deduplication worker, with the already-seen elements as an
accumulator; models Python's `list(dict.fromkeys(xs))` and seen-set loops. -/
def dedupAux [DecidableEq α] (seen : List α) : List α → List α
  | [] => []
  | x :: xs => if x ∈ seen then dedupAux seen xs else x :: dedupAux (seen ++ [x]) xs

/-- Keep-first deduplication: `list(dict.fromkeys(xs))`. -/
def dedupKeepFirst [DecidableEq α] (l : List α) : List α := dedupAux [] l

/-- Model of `set.add` on a set represented as a duplicate-free list. -/
def insertIfAbsent [DecidableEq α] (x : α) (l : List α) : List α :=
  if x ∈ l then l else l ++ [x]

/-- Truthy value of an optional Python string: `none` for `None` or `""`,
otherwise the string itself. -/
def tval : Option String → Option String
  | none => none
  | some s => if s = "" then none else some s

/-- Pattern `"https://doi.org/"` removed by `_normalize_doi`. -/
def doiPat1 : List Char := "https://doi.org/".data

/-- Pattern `"http://doi.org/"` removed by `_normalize_doi`. -/
def doiPat2 : List Char := "http://doi.org/".data

/-- Embedding of `_normalize_doi` (Research_assistant_v1.py:5299-5305):
falsy input gives `None`; otherwise strip whitespace, remove the two
`doi.org` URL patterns, strip and lower-case, and map empty to `None`. -/
def normalize_doi : Option String → Option String
  | none => none
  | some s =>
    if s = "" then none
    else
      let cleaned := pyStrip s.data
      let cleaned := removeAll doiPat1 cleaned
      let cleaned := removeAll doiPat2 cleaned
      let cleaned := lowerL (pyStrip cleaned)
      if cleaned = [] then none else some ⟨cleaned⟩

/-- Shared text cleaner of `_normalize_title` and `_normalize_author`
(Research_assistant_v1.py:5307-5321): lower-case, replace
non-word/non-space characters by spaces, collapse whitespace, strip. -/
def cleanText (s : String) : List Char :=
  let text := lowerL s.data
  let text := text.map (fun c => if isWordChar c || isWs c then c else ' ')
  pyStrip (squeezeWs text)

/-- Embedding of `_normalize_title`: falsy input or empty cleaned text is
`None`. -/
def normalize_title : Option String → Option String
  | none => none
  | some s =>
    if s = "" then none
    else
      let t := cleanText s
      if t = [] then none else some ⟨t⟩

/-- Embedding of `_normalize_author`: same cleaning as `_normalize_title`. -/
def normalize_author : Option String → Option String
  | none => none
  | some s =>
    if s = "" then none
    else
      let t := cleanText s
      if t = [] then none else some ⟨t⟩

/-- Embedding of `_extract_first_author` at the string case of its dynamic
input (the records built by `search_api` store `authors` as a joined
string): take the text before the first comma and normalize it.  The
list/dict branches of the Python function are not exercised by records of
this pipeline. -/
def extract_first_author : Option String → Option String
  | none => none
  | some a =>
    if a = "" then none
    else normalize_author (some ⟨a.data.takeWhile (fun c => c ≠ ',')⟩)

/-- Match of the regex `\b(19|20)\d{2}\b` at the head of `s`, with `prev`
the character just before `s` (if any): the token must be four digits
starting `19` or `20` and be delimited by non-word characters. -/
def yearHere (prev : Option Char) (s : List Char) : Option String :=
  match s with
  | c1 :: c2 :: c3 :: c4 :: rest =>
    if (match prev with | none => true | some p => !isWordChar p)
        && ((c1 = '1' && c2 = '9') || (c1 = '2' && c2 = '0'))
        && c3.isDigit && c4.isDigit
        && (match rest with | [] => true | r :: _ => !isWordChar r) then
      some ⟨[c1, c2, c3, c4]⟩
    else none
  | _ => none

/-- Leftmost match of `\b(19|20)\d{2}\b`, scanning as `re.search` does. -/
def findYear (prev : Option Char) : List Char → Option String
  | [] => none
  | c :: cs =>
    match yearHere prev (c :: cs) with
    | some y => some y
    | none => findYear (some c) cs

/-- Embedding of `_normalize_year` (Research_assistant_v1.py:5336-5340):
first `19xx`/`20xx` word-delimited token anywhere in the text. -/
def normalize_year : Option String → Option String
  | none => none
  | some s => if s = "" then none else findYear none s.data

/-- Numeric value of a digit string, for the `int(...)` comparisons of
merged years. -/
def natOfDigits (l : List Char) : Nat :=
  l.foldl (fun n c => 10 * n + (c.toNat - 48)) 0

/-- Scheme of a URL per `urlsplit`: the text before the first `':'` when it
is a valid scheme (letter first, then letters/digits/`+`/`-`/`.`);
otherwise empty. -/
def urlScheme (l : List Char) : List Char :=
  let pre := l.takeWhile (fun c => c ≠ ':')
  if pre.length < l.length
      && (match pre with
          | [] => false
          | c :: cs => c.isAlpha && cs.all (fun d => d.isAlphanum || d = '+' || d = '-' || d = '.')) then
    pre
  else []

/-- Embedding of `_normalize_pdf_url` (Research_assistant_v1.py:5342-5353):
split the URL, require a scheme and a host, rebuild
`scheme://host + path` with the query and fragment discarded, the scheme
and host lower-cased, and trailing slashes stripped from the path. -/
def normalize_pdf_url : Option String → Option String
  | none => none
  | some s =>
    if s = "" then none
    else
      let t := pyStrip s.data
      let t := t.takeWhile (fun c => c ≠ '#')
      let t := t.takeWhile (fun c => c ≠ '?')
      let scheme := urlScheme t
      let rest := if scheme = [] then t else t.drop (scheme.length + 1)
      match rest with
      | '/' :: '/' :: r =>
        let netloc := r.takeWhile (fun c => c ≠ '/')
        let path := r.drop netloc.length
        if scheme = [] || netloc = [] then none
        else
          some ⟨lowerL scheme ++ "://".data ++ lowerL netloc
                ++ (path.reverse.dropWhile (fun c => c = '/')).reverse⟩
      | _ => none

/-- Venue-quality data carried in a record's `quality` dict. -/
structure MQuality where
  impact : Option Int
  name : Option String
deriving DecidableEq

/-- Fields of a paper record (a Python dict) read or written by the
search/deduplication subsystem.  `none` stands for a missing key or
`None`. -/
structure Paper where
  paper_id : Option String := none
  title : Option String := none
  year : Option String := none
  authors : Option String := none
  tldr : Option String := none
  abstract : Option String := none
  pdf_url : Option String := none
  pdf_source : Option String := none
  doi : Option String := none
  query : Option String := none
  section_ : Option String := none
  citations : Option Int := none
  infl_citations : Option Int := none
  concepts : List String := []
  venue : Option String := none
  quality : Option MQuality := none
  externalIds : List String := []
  external_ids : List String := []
  s2_paper_id : Option String := none
  paperId : Option String := none
  openalex_id : Option String := none
  openalexId : Option String := none
  all_queries : Option (List String) := none
  all_sections : Option (List String) := none
  duplicate_paper_ids : Option (List String) := none
deriving DecidableEq

/-- Embedding of `_collect_external_ids` (Research_assistant_v1.py:5355-5367):
truthy values of the two external-id dicts and the four id keys, trimmed
and lower-cased, deduplicated keeping first occurrences. -/
def collect_external_ids (p : Paper) : List String :=
  let dictVals := (p.externalIds ++ p.external_ids).filter (fun v => v ≠ "")
  let keyVals := [p.s2_paper_id, p.paperId, p.openalex_id, p.openalexId].filterMap tval
  dedupKeepFirst ((dictVals ++ keyVals).map (fun v => (⟨lowerL (pyStrip v.data)⟩ : String)))

/-- Embedding of `_has_real_text` (Research_assistant_v1.py:5369-5377). -/
def has_real_text (t : Option String) (placeholders : List String) : Bool :=
  match t with
  | none => false
  | some s =>
    if s = "" then false
    else
      let cleaned : String := ⟨pyStrip s.data⟩
      cleaned ≠ "" && cleaned ∉ placeholders

/-- Score tuple of `_score_canonical`, ordered lexicographically: Python
compares the 7-tuple componentwise, booleans as 0/1. -/
abbrev Score := ℕ ×ₗ (ℕ ×ₗ (ℕ ×ₗ (ℕ ×ₗ (ℤ ×ₗ (ℕ ×ₗ ℕ)))))

/-- Booleans as the 0/1 integers of the Python tuple. -/
def b2n (b : Bool) : ℕ := if b then 1 else 0

/-- Embedding of `_score_canonical` (Research_assistant_v1.py:5379-5399):
(has DOI, has pdf_url, has non-placeholder abstract, has non-placeholder
AI summary, citation count, abstract length, title length). -/
def score_canonical (p : Paper) : Score :=
  toLex (b2n (normalize_doi p.doi).isSome,
    toLex (b2n (tval p.pdf_url).isSome,
      toLex (b2n (has_real_text p.abstract ["No abstract."]),
        toLex (b2n (has_real_text p.tldr ["No AI summary available."]),
          toLex (p.citations.getD 0,
            toLex ((p.abstract.getD "").length, (p.title.getD "").length))))))

/-- Model of Python `max(xs, key=k)` on `x :: l`: scan left to right and
replace the current best only on a strictly greater key, so the first
maximal element wins. -/
def pyMaxBy [LinearOrder κ] (key : α → κ) (x : α) (l : List α) : α :=
  l.foldl (fun b y => if key b < key y then y else b) x

/-- Base record chosen by `_merge_paper_group` (line 5412):
`max(group["papers"], key=_score_canonical)`.  Python raises on an empty
group; groups are never empty, and the `[]` branch is unreachable filler. -/
def merge_base : List Paper → Paper
  | [] => {}
  | p :: rest => pyMaxBy score_canonical p rest

/-- Embedding of `_pdf_source_rank` (Research_assistant_v1.py:5401-5409). -/
def pdf_source_rank (p : Paper) : ℕ :=
  if tval p.pdf_url = none then 0
  else if p.pdf_source.getD "" = "OpenAlex" then 3
  else if p.pdf_source.getD "" = "Elsevier" then 2
  else 1

/-- Set of normalized DOIs accumulated over the cluster's members
(Research_assistant_v1.py:5418-5423), as a duplicate-free list. -/
def merge_doi_norms (ps : List Paper) : List String :=
  ps.foldl (fun acc p =>
    match normalize_doi p.doi with
    | some d => insertIfAbsent d acc
    | none => acc) []

/-- Least element of a list of strings, i.e. `sorted(xs)[0]`. -/
def listMinStr : List String → Option String
  | [] => none
  | x :: xs => some (xs.foldl min x)

/-- Truthiness of the `impact` entry of a record's `quality` dict:
`(paper.get("quality") or {}).get("impact")`. -/
def qualImpactTruthy : Option MQuality → Bool
  | some m => (match m.impact with | some i => decide (i ≠ 0) | none => false)
  | none => false

/-- Overlay of `_merge_paper_group` lines 5434-5435: the `doi` becomes the
smallest normalized DOI of the cluster, when there is one. -/
def merge_overlay_doi (ps : List Paper) (c : Paper) : Paper :=
  match listMinStr (merge_doi_norms ps) with
  | some m => { c with doi := some m }
  | none => c

/-- Overlay of lines 5437-5449: the member with the highest PDF-source rank
contributes `pdf_url` and `pdf_source`. -/
def merge_overlay_pdf (ps : List Paper) (c : Paper) : Paper :=
  let best3 := ps.foldl
    (fun (acc : Option String × Option String × ℕ) p =>
      if acc.2.2 < pdf_source_rank p then (p.pdf_url, p.pdf_source, pdf_source_rank p) else acc)
    (c.pdf_url, c.pdf_source, pdf_source_rank c)
  let c : Paper := if (tval best3.1).isSome then { c with pdf_url := best3.1 } else c
  if (tval best3.2.1).isSome then { c with pdf_source := best3.2.1 } else c

/-- Overlay of lines 5451-5454: the longest truthy title wins. -/
def merge_overlay_title (ps : List Paper) (c : Paper) : Paper :=
  ps.foldl (fun c p =>
    match tval p.title with
    | some t => if (c.title.getD "").length < t.length then { c with title := some t } else c
    | none => c) c

/-- Overlay of lines 5456-5459: the longest truthy authors string wins. -/
def merge_overlay_authors (ps : List Paper) (c : Paper) : Paper :=
  ps.foldl (fun c p =>
    match tval p.authors with
    | some a => if (c.authors.getD "").length < a.length then { c with authors := some a } else c
    | none => c) c

/-- Overlay of lines 5461-5467: the earliest valid normalized year wins. -/
def merge_overlay_year (ps : List Paper) (c : Paper) : Paper :=
  let yearNorm : Option String := ps.foldl (fun y p =>
    match normalize_year p.year with
    | some cand =>
      (match y with
       | none => some cand
       | some cur => if natOfDigits cand.data < natOfDigits cur.data then some cand else some cur)
    | none => y) (normalize_year c.year)
  match yearNorm with
  | some y => { c with year := some y }
  | none => c

/-- Overlay of lines 5469-5482: citation counts become the maximum over the
base and all members (`_as_int` maps missing values to 0). -/
def merge_overlay_counts (ps : List Paper) (c : Paper) : Paper :=
  { c with
    citations := some (ps.foldl (fun m p => max m (p.citations.getD 0)) (c.citations.getD 0)),
    infl_citations :=
      some (ps.foldl (fun m p => max m (p.infl_citations.getD 0)) (c.infl_citations.getD 0)) }

/-- Overlay of lines 5484-5489: a placeholder abstract is replaced by the
first real one found among members. -/
def merge_overlay_abstract (ps : List Paper) (c : Paper) : Paper :=
  if has_real_text c.abstract ["No abstract."] then c else
    match ps.find? (fun p => has_real_text p.abstract ["No abstract."]) with
    | some p => { c with abstract := p.abstract }
    | none => c

/-- Overlay of lines 5491-5496: same for the AI summary. -/
def merge_overlay_tldr (ps : List Paper) (c : Paper) : Paper :=
  if has_real_text c.tldr ["No AI summary available."] then c else
    match ps.find? (fun p => has_real_text p.tldr ["No AI summary available."]) with
    | some p => { c with tldr := p.tldr }
    | none => c

/-- Overlay of lines 5498-5507: first-seen union of concepts, capped at 3. -/
def merge_overlay_concepts (ps : List Paper) (c : Paper) : Paper :=
  let allConcepts : List String := dedupKeepFirst (ps.foldl (fun acc p => acc ++ p.concepts) [])
  if allConcepts = [] then c else { c with concepts := allConcepts.take 3 }

/-- Overlay of lines 5509-5513: first truthy venue fills a missing venue. -/
def merge_overlay_venue (ps : List Paper) (c : Paper) : Paper :=
  if (tval c.venue).isSome then c else
    match ps.find? (fun p => (tval p.venue).isSome) with
    | some p => { c with venue := p.venue }
    | none => c

/-- Overlay of lines 5515-5520: first quality dict with a truthy impact
fills a missing one. -/
def merge_overlay_quality (ps : List Paper) (c : Paper) : Paper :=
  if qualImpactTruthy c.quality then c else
    match ps.find? (fun p => qualImpactTruthy p.quality) with
    | some p => { c with quality := p.quality }
    | none => c

/-- Overlay of lines 5522-5527: deduplicated provenance lists and the ids of
the merged-away members (every truthy `paper_id` other than the base id,
read from `c` whose `paper_id` is still that of the base). -/
def merge_overlay_provenance (ps : List Paper) (c : Paper) : Paper :=
  let qs : List String := ps.filterMap (fun p => tval p.query)
  let c : Paper := if qs = [] then c else { c with all_queries := some (dedupKeepFirst qs) }
  let ss : List String := ps.filterMap (fun p => tval p.section_)
  let c : Paper := if ss = [] then c else { c with all_sections := some (dedupKeepFirst ss) }
  let dups : List String := ps.filterMap (fun p =>
    match tval p.paper_id with
    | some pid => if some pid ≠ c.paper_id then some pid else none
    | none => none)
  if dups = [] then c else { c with duplicate_paper_ids := some (dedupKeepFirst dups) }

/-- Embedding of `_merge_paper_group` (Research_assistant_v1.py:5411-5529):
copy the best-scoring member and apply the overlay rules across the whole
cluster, in source order. -/
def merge_paper_group (ps : List Paper) : Paper :=
  merge_overlay_provenance ps (merge_overlay_quality ps (merge_overlay_venue ps
    (merge_overlay_concepts ps (merge_overlay_tldr ps (merge_overlay_abstract ps
      (merge_overlay_counts ps (merge_overlay_year ps (merge_overlay_authors ps
        (merge_overlay_title ps (merge_overlay_pdf ps
          (merge_overlay_doi ps (merge_base ps))))))))))))

/-- Normalized keys computed for each incoming record at
Research_assistant_v1.py:5596-5613. -/
structure PaperKeys where
  doi : Option String
  title : Option String
  tya : Option String
  pdf : Option String
  ext_ids : List String
deriving DecidableEq

/-- Key computation of `deduplicate_papers`: the composite `tya` key is
`"title|year|first-author"` and exists only when all three parts are
truthy. -/
def paper_keys (p : Paper) : PaperKeys :=
  let doi_norm := normalize_doi p.doi
  let title_norm := normalize_title p.title
  let first_author := extract_first_author p.authors
  let year_norm := normalize_year p.year
  { doi := doi_norm
    title := title_norm
    tya :=
      match tval title_norm, tval year_norm, tval first_author with
      | some t, some y, some a => some (t ++ "|" ++ y ++ "|" ++ a)
      | _, _, _ => none
    pdf := normalize_pdf_url p.pdf_url
    ext_ids := collect_external_ids p }

/-- Cluster of likely-duplicate records: its member list, one representative
normalized title, and the set of normalized DOIs seen among members. -/
structure PaperGroup where
  papers : List Paper := []
  title_norm : Option String := none
  doi_norms : List String := []
deriving DecidableEq

/-- Embedding of `_doi_conflict` (Research_assistant_v1.py:5546-5550): a
truthy incoming DOI conflicts with a cluster having a non-empty DOI set
that does not contain it. -/
def doi_conflict (g : PaperGroup) (dn : Option String) : Bool :=
  match tval dn with
  | none => false
  | some d => decide (g.doi_norms ≠ []) && decide (d ∉ g.doi_norms)

/-- Similarity of the incoming title against one cluster, or `none` when the
cluster is skipped (no representative title, or DOI conflict) — the loop
body of `_find_fuzzy_title_group`. -/
def groupRatio (ratio : String → String → ℚ) (t : String) (dn : Option String)
    (g : PaperGroup) : Option ℚ :=
  match tval g.title_norm with
  | none => none
  | some et => if doi_conflict g dn then none else some (ratio t et)

/-- Scan of `_find_fuzzy_title_group`: running `(best_idx, best_ratio)`
accumulator, updated only on a strictly greater ratio. -/
def fuzzyBest (ratio : String → String → ℚ) (t : String) (dn : Option String) :
    List PaperGroup → ℕ → (Option ℕ × ℚ) → Option ℕ × ℚ
  | [], _, acc => acc
  | g :: rest, i, acc =>
    fuzzyBest ratio t dn rest (i + 1)
      (match groupRatio ratio t dn g with
       | none => acc
       | some r => if acc.2 < r then (some i, r) else acc)

/-- Embedding of `_find_fuzzy_title_group`
(Research_assistant_v1.py:5552-5571).  The Python function appends a
low-confidence warning to the enclosing `fuzzy_warnings` list; here the
warning is returned as the second component, as the pair
(ratio, first 80 characters of the title) instead of a formatted string. -/
def find_fuzzy_title_group (ratio : String → String → ℚ) (thr : ℚ) (gs : List PaperGroup)
    (t : String) (dn : Option String) : Option ℕ × Option (ℚ × String) :=
  let br := fuzzyBest ratio t dn gs 0 (none, 0)
  if thr ≤ br.2 then
    (br.1, if br.2 < thr + 2 / 100 then some (br.2, (⟨t.data.take 80⟩ : String)) else none)
  else (none, none)

/-- Highest similarity over the clusters that `_find_fuzzy_title_group`
does not skip, floored at the accumulator's initial `0.0`. -/
def best_fuzzy_ratio (ratio : String → String → ℚ) (t : String) (dn : Option String)
    (gs : List PaperGroup) : ℚ :=
  (gs.filterMap (groupRatio ratio t dn)).foldl max 0

/-- Association list with Python-dict lookup (each key occurs at most once,
since insertion goes through `setdefault`). -/
def alookup (m : List (String × ℕ)) (k : String) : Option ℕ :=
  match m with
  | [] => none
  | (k', v) :: rest => if k' = k then some v else alookup rest k

/-- Model of `dict.setdefault(k, v)`: first writer wins per key. -/
def setdefaultA (m : List (String × ℕ)) (k : String) (v : ℕ) : List (String × ℕ) :=
  if (alookup m k).isSome then m else m ++ [(k, v)]

/-- State of the cluster builder: the cluster list, the five key indices,
and the accumulated fuzzy warnings. -/
structure DedupState where
  groups : List PaperGroup := []
  doiMap : List (String × ℕ) := []
  extMap : List (String × ℕ) := []
  tyaMap : List (String × ℕ) := []
  titleMap : List (String × ℕ) := []
  pdfMap : List (String × ℕ) := []
  fuzzy_warnings : List (ℚ × String) := []
deriving DecidableEq

/-- First external id of the record that is already indexed — the loop at
Research_assistant_v1.py:5619-5622. -/
def ext_first_hit (m : List (String × ℕ)) : List String → Option ℕ
  | [] => none
  | e :: es =>
    match alookup m e with
    | some i => some i
    | none => ext_first_hit m es

/-- Member-side half of `_add_to_group` (Research_assistant_v1.py:5574-5581):
append the record to the cluster, grow its DOI set, and fill a missing
representative title. -/
def group_update (g : PaperGroup) (p : Paper) (k : PaperKeys) : PaperGroup :=
  let g : PaperGroup := { g with papers := g.papers ++ [p] }
  let g : PaperGroup :=
    match tval k.doi with
    | some d => { g with doi_norms := insertIfAbsent d g.doi_norms }
    | none => g
  match tval k.title with
  | some t => if (tval g.title_norm).isSome then g else { g with title_norm := some t }
  | none => g

/-- Embedding of `_add_to_group` (Research_assistant_v1.py:5573-5594):
update the cluster, then write each truthy key into its index with
first-writer-wins. -/
def add_to_group (st : DedupState) (gi : ℕ) (p : Paper) (k : PaperKeys) : DedupState :=
  let g : PaperGroup := group_update (st.groups.getD gi {}) p k
  let st : DedupState := { st with groups := st.groups.set gi g }
  let st : DedupState :=
    match tval k.doi with
    | some d => { st with doiMap := setdefaultA st.doiMap d gi }
    | none => st
  let st : DedupState :=
    { st with extMap := k.ext_ids.foldl (fun m e => setdefaultA m e gi) st.extMap }
  let st : DedupState :=
    match tval k.tya with
    | some s1 => { st with tyaMap := setdefaultA st.tyaMap s1 gi }
    | none => st
  let st : DedupState :=
    match tval k.title with
    | some t => { st with titleMap := setdefaultA st.titleMap t gi }
    | none => st
  match tval k.pdf with
  | some u => { st with pdfMap := setdefaultA st.pdfMap u gi }
  | none => st

/-- Last match candidate of the cascade (Research_assistant_v1.py:5632-5635):
a cluster already indexed under the record's normalized PDF URL, accepted
only if the DOI-conflict guard passes. -/
def pdf_step (st : DedupState) (k : PaperKeys) : Option ℕ :=
  match tval k.pdf with
  | some u =>
    (match alookup st.pdfMap u with
     | some c => if doi_conflict (st.groups.getD c {}) k.doi then none else some c
     | none => none)
  | none => none

/-- Priority-ordered candidate search of `deduplicate_papers`
(Research_assistant_v1.py:5615-5635): DOI index, external ids, composite
key, exact title (guarded), fuzzy title, PDF URL (guarded).  Returns the
matched cluster index (if any) and the fuzzy warning possibly recorded on
the way. -/
def select_group (ratio : String → String → ℚ) (thr : ℚ) (st : DedupState)
    (k : PaperKeys) : Option ℕ × Option (ℚ × String) :=
  match (match tval k.doi with | some d => alookup st.doiMap d | none => none) with
  | some i => (some i, none)
  | none =>
  match ext_first_hit st.extMap k.ext_ids with
  | some i => (some i, none)
  | none =>
  match (match tval k.tya with | some s1 => alookup st.tyaMap s1 | none => none) with
  | some i => (some i, none)
  | none =>
  match tval k.title with
  | some t =>
    (match (match alookup st.titleMap t with
            | some c => if doi_conflict (st.groups.getD c {}) k.doi then none else some c
            | none => none) with
     | some i => (some i, none)
     | none =>
       let fz := find_fuzzy_title_group ratio thr st.groups t k.doi
       (match fz.1 with
        | some i => (some i, fz.2)
        | none => (pdf_step st k, fz.2)))
  | none => (pdf_step st k, none)

/-- One iteration of the main loop of `deduplicate_papers`: match the record
against the indices, else allocate a new singleton cluster, then write the
record into its cluster and the indices. -/
def process_paper (ratio : String → String → ℚ) (thr : ℚ) (st : DedupState)
    (p : Paper) : DedupState :=
  let k := paper_keys p
  let sel := select_group ratio thr st k
  let st : DedupState := { st with fuzzy_warnings := st.fuzzy_warnings ++ sel.2.toList }
  match sel.1 with
  | some i => add_to_group st i p k
  | none =>
    let gi := st.groups.length
    let st : DedupState :=
      { st with groups := st.groups ++ [{ papers := [], title_norm := k.title, doi_norms := [] }] }
    add_to_group st gi p k

/-- Cluster-builder state after all records are processed. -/
def dedup_state (ratio : String → String → ℚ) (thr : ℚ) (ps : List Paper) : DedupState :=
  ps.foldl (process_paper ratio thr) {}

/-- Clusters built by `deduplicate_papers` for the given input order. -/
def dedup_groups (ratio : String → String → ℚ) (thr : ℚ) (ps : List Paper) : List PaperGroup :=
  (dedup_state ratio thr ps).groups

/-- Statistics object returned by `deduplicate_papers`. -/
structure DedupStats where
  input : ℕ
  groups : ℕ
  output : ℕ
  fuzzy_warnings : List (ℚ × String)
deriving DecidableEq

/-- Embedding of `deduplicate_papers` (Research_assistant_v1.py:5534-5656),
parameterized by the similarity function `ratio` (the code's
`SequenceMatcher(None, a, b).ratio()`) and the fuzzy threshold. -/
def deduplicate_papers (ratio : String → String → ℚ) (thr : ℚ) (ps : List Paper) :
    List Paper × DedupStats :=
  if ps = [] then ([], ⟨0, 0, 0, []⟩)
  else
    let st := dedup_state ratio thr ps
    let merged := st.groups.map (fun g => merge_paper_group g.papers)
    (merged, ⟨ps.length, st.groups.length, merged.length, st.fuzzy_warnings⟩)

/-- Effective per-query limit computed by `search_api`
(Research_assistant_v1.py:4724): `per_query_limit = max(1, int(limit))`. -/
def search_api_per_query_limit (limit : ℤ) : ℤ := max 1 limit

/-- One iteration of the polling loop of `search_api`
(Research_assistant_v1.py:4849-4876): `elapsed` is the wall-clock reading
taken at the top-of-loop timeout check, and `done` holds the
`(local_found, local_missing)` pairs of the worker futures delivered by
the `wait` call of this iteration. -/
structure PollRound (α : Type) where
  elapsed : ℕ
  done : List (List α × List α)

/-- Embedding of the polling loop of `search_api`: before each wait, the
elapsed time is checked against the timeout; on `elapsed > timeout` the
loop breaks with `timed_out = True` and the remaining rounds are
discarded; otherwise the delivered results are appended to the running
`found`/`missing` lists and `completed` counts the finished futures.  The
rounds list ends when no task is pending, in which case `timed_out` stays
`False`.  The loop never raises: its result is always the accumulated
state. -/
def search_loop (timeout : ℕ) (accF accM : List α) (completed : ℕ) :
    List (PollRound α) → List α × List α × Bool × ℕ
  | [] => (accF, accM, false, completed)
  | r :: rest =>
    if timeout < r.elapsed then (accF, accM, true, completed)
    else
      search_loop timeout (accF ++ (r.done.map Prod.fst).flatten)
        (accM ++ (r.done.map Prod.snd).flatten) (completed + r.done.length) rest

/-- Result of `search_api`'s dispatch phase for a given trace of polling
rounds: `(found, missing, timed_out, completed)`. -/
def search_api_loop (timeout : ℕ) (rounds : List (PollRound α)) :
    List α × List α × Bool × ℕ :=
  search_loop timeout [] [] 0 rounds

/-! ### Theorems -/

/-- Worker lemma for the timeout theorem: whatever was accumulated before,
rounds whose check happens at or before the deadline are merged, and the
first round checked past the deadline stops the loop, discarding itself
and everything after it. -/
theorem search_loop_timeout_go {α : Type} (timeout : ℕ) (r : PollRound α)
    (post : List (PollRound α)) (hr : timeout < r.elapsed) :
    ∀ (pre : List (PollRound α)) (accF accM : List α) (c : ℕ),
      (∀ q ∈ pre, q.elapsed ≤ timeout) →
      search_loop timeout accF accM c (pre ++ r :: post)
        = (accF ++ (pre.map (fun q => (q.done.map Prod.fst).flatten)).flatten,
           accM ++ (pre.map (fun q => (q.done.map Prod.snd).flatten)).flatten,
           true,
           c + (pre.map (fun q => q.done.length)).sum) := by
  intro pre
  induction pre with
  | nil =>
    intro accF accM c _
    simp [search_loop, hr]
  | cons q pre ih =>
    intro accF accM c hpre
    have hq : q.elapsed ≤ timeout := hpre q (by simp)
    have hrest : ∀ x ∈ pre, x.elapsed ≤ timeout := fun x hx => hpre x (by simp [hx])
    simp only [List.cons_append, search_loop, List.append_eq]
    rw [if_neg (by omega : ¬ timeout < q.elapsed), ih _ _ _ hrest]
    simp [List.append_assoc, Nat.add_assoc]

/-- C3: when the wall-clock timeout elapses before all provider tasks
finish — some polling round checks an elapsed time beyond the timeout
while tasks are still pending — the dispatcher stops waiting and returns
(normally, not by raising) exactly the found/missing results accumulated
in the rounds before that check together with `timed_out = true`; the
results of every round from the abandonment check onwards are discarded,
not merged. -/
theorem search_api_timeout_partial {α : Type} (timeout : ℕ) (pre : List (PollRound α))
    (r : PollRound α) (post : List (PollRound α))
    (hpre : ∀ q ∈ pre, q.elapsed ≤ timeout) (hr : timeout < r.elapsed) :
    search_api_loop timeout (pre ++ r :: post)
      = ((pre.map (fun q => (q.done.map Prod.fst).flatten)).flatten,
         (pre.map (fun q => (q.done.map Prod.snd).flatten)).flatten,
         true,
         (pre.map (fun q => q.done.length)).sum) := by
  unfold search_api_loop
  rw [search_loop_timeout_go timeout r post hr pre [] [] 0 hpre]
  simp

/-- Witness for the timeout theorem at a concrete trace: one round inside
the deadline, then a round checked past it; only the first round's
results are returned, flagged timed out. -/
theorem search_api_timeout_partial_witness :
    search_api_loop 5 [⟨3, [([10], [20])]⟩, ⟨7, [([30], [40])]⟩, ⟨9, [([50], [60])]⟩]
      = ([10], [20], true, 1) := by
  have h := search_api_timeout_partial (α := ℕ) 5 [⟨3, [([10], [20])]⟩]
    ⟨7, [([30], [40])]⟩ [⟨9, [([50], [60])]⟩]
    (by intro q hq; rcases List.mem_singleton.mp hq with rfl; decide) (by decide)
  simpa using h

/-- C9 counterexample: a non-positive per-query limit passed to the
dispatcher is not rejected — `search_api` silently clamps it to 1 and
proceeds. -/
theorem search_api_limit_not_rejected :
    search_api_per_query_limit 0 = 1 ∧ search_api_per_query_limit (-5) = 1 := by
  constructor <;> simp [search_api_per_query_limit]

/-- C9 amended: the dispatcher accepts any integer per-query limit and
clamps it from below to 1 (`max(1, int(limit))`): positive limits pass
through, non-positive ones become 1, and the effective limit is always at
least 1. -/
theorem search_api_limit_clamped (limit : ℤ) :
    1 ≤ search_api_per_query_limit limit
      ∧ (1 ≤ limit → search_api_per_query_limit limit = limit)
      ∧ (limit ≤ 0 → search_api_per_query_limit limit = 1) :=
  ⟨le_max_left _ _, fun h => max_eq_right h, fun h => max_eq_left (by linarith)⟩

/-- Witness for the clamping theorem at the concrete limit `-7`. -/
theorem search_api_limit_clamped_witness :
    1 ≤ search_api_per_query_limit (-7) ∧ search_api_per_query_limit (-7) = 1 :=
  ⟨(search_api_limit_clamped (-7)).1, (search_api_limit_clamped (-7)).2.2 (by norm_num)⟩

/-- Occurrence test: `pat` appears as a contiguous sublist of `s` (the
substring relation of Python's `in` / `str.replace` scanning). -/
def containsL (pat : List Char) : List Char → Bool
  | [] => pat.isEmpty
  | c :: cs => pat.isPrefixOf (c :: cs) || containsL pat (cs)

/-- First character (if any) is not whitespace. -/
def noLeadWs : List Char → Bool
  | [] => true
  | c :: _ => !isWs c

/-- A list whose head is not whitespace is fixed by `dropWhile isWs`. -/
theorem dropWhile_of_noLead (l : List Char) (h : noLeadWs l = true) :
    l.dropWhile isWs = l := by
  cases l with
  | nil => rfl
  | cons c cs =>
    simp only [noLeadWs, Bool.not_eq_true'] at h
    simp [List.dropWhile_cons, h]

/-- Appending to the right preserves a non-whitespace head. -/
theorem noLeadWs_append_left (a b : List Char) (ha : noLeadWs a = true)
    (hab : a = [] → noLeadWs b = true) : noLeadWs (a ++ b) = true := by
  cases a with
  | nil => simpa using hab rfl
  | cons c cs => simpa [noLeadWs] using ha

/-- A list with no leading and no trailing whitespace is fixed by `strip`. -/
theorem pyStrip_eq_self (l : List Char) (h1 : noLeadWs l = true)
    (h2 : noLeadWs l.reverse = true) : pyStrip l = l := by
  unfold pyStrip
  rw [dropWhile_of_noLead _ h1, dropWhile_of_noLead _ h2, List.reverse_reverse]

/-- Any sufficient fuel computes the same removal as the canonical fuel. -/
theorem removeAllGo_eq (pat : List Char) (hp : pat ≠ []) :
    ∀ f s, s.length ≤ f → removeAllGo pat f s = removeAll pat s := by
  intro f
  induction f using Nat.strong_induction_on with
  | _ f ih =>
    intro s hs
    cases s with
    | nil => cases f <;> simp [removeAllGo, removeAll]
    | cons c cs =>
      cases f with
      | zero => simp at hs
      | succ f =>
        have hcs : cs.length ≤ f := by simpa using hs
        have hpl : 1 ≤ pat.length := by
          cases pat with
          | nil => exact absurd rfl hp
          | cons a as => simp
        have hdlen : ((c :: cs).drop pat.length).length ≤ cs.length := by
          simp only [List.length_drop, List.length_cons]
          omega
        by_cases hpre : pat.isPrefixOf (c :: cs)
        · rw [show removeAllGo pat (f + 1) (c :: cs)
                = removeAllGo pat f ((c :: cs).drop pat.length) by
              simp [removeAllGo, hpre]]
          rw [show removeAll pat (c :: cs)
                = removeAllGo pat cs.length ((c :: cs).drop pat.length) by
              simp [removeAll, hp, removeAllGo, hpre]]
          rw [ih f (by omega) _ (le_trans hdlen hcs),
            ih cs.length (by omega) _ hdlen]
        · rw [show removeAllGo pat (f + 1) (c :: cs)
                = c :: removeAllGo pat f cs by simp [removeAllGo, hpre]]
          rw [show removeAll pat (c :: cs)
                = c :: removeAllGo pat cs.length cs by
              simp [removeAll, hp, removeAllGo, hpre]]
          rw [ih f (by omega) _ hcs, ih cs.length (by omega) _ le_rfl]

/-- Text without an occurrence of the pattern is unchanged by removal. -/
theorem removeAll_of_not_contains (pat s : List Char)
    (h : containsL pat s = false) : removeAll pat s = s := by
  induction s with
  | nil =>
    by_cases hp : pat = []
    · subst hp; simp [containsL, List.isEmpty] at h
    · simp [removeAll, hp, removeAllGo]
  | cons c cs ih =>
    have hsplit : pat.isPrefixOf (c :: cs) = false ∧ containsL pat cs = false := by
      simpa [containsL, Bool.or_eq_false_iff] using h
    have hp : pat ≠ [] := by
      intro he
      subst he
      simp [List.isPrefixOf] at hsplit
    rw [show removeAll pat (c :: cs) = removeAllGo pat (cs.length + 1) (c :: cs) by
      simp [removeAll, hp]]
    rw [show removeAllGo pat (cs.length + 1) (c :: cs)
        = c :: removeAllGo pat cs.length cs by simp [removeAllGo, hsplit.1]]
    rw [removeAllGo_eq pat hp cs.length cs le_rfl, ih hsplit.2]

/-- Removal consumes a leading occurrence of the pattern. -/
theorem removeAll_pat_append (pat rest : List Char) (hp : pat ≠ []) :
    removeAll pat (pat ++ rest) = removeAll pat rest := by
  cases pat with
  | nil => exact absurd rfl hp
  | cons a as =>
    have hpre : (a :: as).isPrefixOf ((a :: as) ++ rest) = true :=
      List.isPrefixOf_iff_prefix.mpr (List.prefix_append _ _)
    rw [show removeAll (a :: as) ((a :: as) ++ rest)
        = removeAllGo (a :: as) (as.length + rest.length + 1) ((a :: as) ++ rest) by
      simp [removeAll]]
    rw [show removeAllGo (a :: as) (as.length + rest.length + 1) ((a :: as) ++ rest)
        = removeAllGo (a :: as) (as.length + rest.length)
            (((a :: as) ++ rest).drop (a :: as).length) by
      simp [removeAllGo, hpre]]
    rw [List.drop_left]
    rw [removeAllGo_eq (a :: as) hp _ rest (by omega)]

/-- Clean inputs (no surrounding whitespace, no occurrence of either
`doi.org` URL pattern) are only lower-cased by `_normalize_doi`, with the
empty result mapped to `None`. -/
theorem normalize_doi_clean (d : List Char) (h1 : noLeadWs d = true)
    (h2 : noLeadWs d.reverse = true) (hc1 : containsL doiPat1 d = false)
    (hc2 : containsL doiPat2 d = false) :
    normalize_doi (some ⟨d⟩) = if lowerL d = [] then none else some ⟨lowerL d⟩ := by
  by_cases hd : d = []
  · subst hd; decide
  · have hne : (⟨d⟩ : String) ≠ "" := fun h => hd (congrArg String.data h)
    simp only [normalize_doi, if_neg hne]
    rw [pyStrip_eq_self d h1 h2, removeAll_of_not_contains _ _ hc1,
      removeAll_of_not_contains _ _ hc2, pyStrip_eq_self d h1 h2]

/-- Removing the `https://doi.org/` pattern from the front reduces
`_normalize_doi` to the unprefixed input. -/
theorem normalize_doi_p1 (d : List Char) (h1 : noLeadWs d = true)
    (h2 : noLeadWs d.reverse = true) (hc1 : containsL doiPat1 d = false)
    (hc2 : containsL doiPat2 d = false) :
    normalize_doi (some ⟨doiPat1 ++ d⟩)
      = if lowerL d = [] then none else some ⟨lowerL d⟩ := by
  have hne : (⟨doiPat1 ++ d⟩ : String) ≠ "" := by
    intro h
    have h' := congrArg String.data h
    simp [doiPat1] at h'
  have hstrip : pyStrip (doiPat1 ++ d) = doiPat1 ++ d := by
    apply pyStrip_eq_self
    · exact noLeadWs_append_left _ _ (by decide) (fun h => absurd h (by decide))
    · rw [List.reverse_append]
      exact noLeadWs_append_left _ _ h2 (fun _ => by decide)
  simp only [normalize_doi, if_neg hne]
  rw [hstrip, removeAll_pat_append _ _ (by decide), removeAll_of_not_contains _ _ hc1,
    removeAll_of_not_contains _ _ hc2, pyStrip_eq_self d h1 h2]

/-- Removing the `http://doi.org/` pattern from the front reduces
`_normalize_doi` to the unprefixed input (the cross-boundary hypothesis
rules out an `https` occurrence spanning the prefix seam). -/
theorem normalize_doi_p2 (d : List Char) (h1 : noLeadWs d = true)
    (h2 : noLeadWs d.reverse = true) (hc2 : containsL doiPat2 d = false)
    (hcross : containsL doiPat1 (doiPat2 ++ d) = false) :
    normalize_doi (some ⟨doiPat2 ++ d⟩)
      = if lowerL d = [] then none else some ⟨lowerL d⟩ := by
  have hne : (⟨doiPat2 ++ d⟩ : String) ≠ "" := by
    intro h
    have h' := congrArg String.data h
    simp [doiPat2] at h'
  have hstrip : pyStrip (doiPat2 ++ d) = doiPat2 ++ d := by
    apply pyStrip_eq_self
    · exact noLeadWs_append_left _ _ (by decide) (fun h => absurd h (by decide))
    · rw [List.reverse_append]
      exact noLeadWs_append_left _ _ h2 (fun _ => by decide)
  simp only [normalize_doi, if_neg hne]
  rw [hstrip, removeAll_of_not_contains _ _ hcross,
    removeAll_pat_append _ _ (by decide), removeAll_of_not_contains _ _ hc2,
    pyStrip_eq_self d h1 h2]

/-- C4 counterexample: `_normalize_doi` does not strip the `doi:` prefix
and does not trim punctuation — `"doi:10.1/AbC."` is only lower-cased,
instead of becoming `"10.1/abc"` as the claim would require. -/
theorem normalize_doi_counterexample :
    normalize_doi (some "doi:10.1/AbC.") = some "doi:10.1/abc."
      ∧ normalize_doi (some "doi:10.1/AbC.") ≠ some "10.1/abc" := by
  constructor <;> decide

/-- C4 amended: `_normalize_doi` maps a missing input to null, never
returns an empty string, removes the URL patterns `https://doi.org/` and
`http://doi.org/` (shown here stripped from the front of an otherwise
clean input), and otherwise only lower-cases a clean input; the `doi:`
prefix and punctuation are left intact (see the counterexample). -/
theorem normalize_doi_amended :
    normalize_doi none = none
      ∧ (∀ s : String, normalize_doi (some s) ≠ some "")
      ∧ (∀ d : List Char,
          noLeadWs d = true → noLeadWs d.reverse = true →
          containsL doiPat1 d = false → containsL doiPat2 d = false →
          (d ≠ [] → normalize_doi (some ⟨d⟩) = some ⟨lowerL d⟩)
            ∧ normalize_doi (some ⟨doiPat1 ++ d⟩) = normalize_doi (some ⟨d⟩)
            ∧ (containsL doiPat1 (doiPat2 ++ d) = false →
               normalize_doi (some ⟨doiPat2 ++ d⟩) = normalize_doi (some ⟨d⟩))) := by
  refine ⟨rfl, ?_, ?_⟩
  · intro s
    by_cases hs : s = ""
    · subst hs; decide
    · simp only [normalize_doi, if_neg hs, ne_eq]
      split
      · simp
      · rename_i hne
        simp only [Option.some.injEq]
        intro hcontra
        exact hne (congrArg String.data hcontra)
  · intro d h1 h2 hc1 hc2
    have hlow : d ≠ [] → lowerL d ≠ [] := by
      intro hd h
      exact hd (by simpa [lowerL] using h)
    refine ⟨?_, ?_, ?_⟩
    · intro hd
      rw [normalize_doi_clean d h1 h2 hc1 hc2, if_neg (hlow hd)]
    · rw [normalize_doi_p1 d h1 h2 hc1 hc2, normalize_doi_clean d h1 h2 hc1 hc2]
    · intro hcross
      rw [normalize_doi_p2 d h1 h2 hc2 hcross, normalize_doi_clean d h1 h2 hc1 hc2]

/-- Witness for the amended DOI theorem at `d = "10.1/X"`: both URL
prefixes are stripped and the remainder is lower-cased. -/
theorem normalize_doi_amended_witness :
    normalize_doi (some "https://doi.org/10.1/X") = some "10.1/x"
      ∧ normalize_doi (some "http://doi.org/10.1/X") = some "10.1/x" := by
  have h := (normalize_doi_amended.2.2 "10.1/X".data (by decide) (by decide)
    (by decide) (by decide))
  have ha := h.2.1
  have hb := h.2.2 (by decide)
  have hc := h.1 (by decide)
  constructor
  · rw [show (some "https://doi.org/10.1/X" : Option String)
        = some ⟨doiPat1 ++ "10.1/X".data⟩ from by decide, ha, hc]
    decide
  · rw [show (some "http://doi.org/10.1/X" : Option String)
        = some ⟨doiPat2 ++ "10.1/X".data⟩ from by decide, hb, hc]
    decide


/-- The record chosen by Python `max(..., key=k)` is one of the scanned
records. -/
theorem pyMaxBy_mem [LinearOrder κ] (key : α → κ) :
    ∀ (l : List α) (x : α), pyMaxBy key x l ∈ x :: l := by
  intro l
  induction l with
  | nil => intro x; simp [pyMaxBy]
  | cons y ys ih =>
    intro x
    rw [show pyMaxBy key x (y :: ys) = pyMaxBy key (if key x < key y then y else x) ys from by
      simp [pyMaxBy]]
    rcases List.mem_cons.mp (ih (if key x < key y then y else x)) with h1 | h2
    · rw [h1]; split <;> simp
    · simp [h2]

/-- The record chosen by Python `max(..., key=k)` has a maximal key. -/
theorem pyMaxBy_le [LinearOrder κ] (key : α → κ) :
    ∀ (l : List α) (x : α), ∀ y ∈ x :: l, key y ≤ key (pyMaxBy key x l) := by
  intro l
  induction l with
  | nil =>
    intro x y hy
    rcases List.mem_cons.mp hy with rfl | h
    · simp [pyMaxBy]
    · simp at h
  | cons z zs ih =>
    intro x y hy
    rw [show pyMaxBy key x (z :: zs) = pyMaxBy key (if key x < key z then z else x) zs from by
      simp [pyMaxBy]]
    have hx : key x ≤ key (if key x < key z then z else x) := by
      split
      · exact le_of_lt (by assumption)
      · exact le_rfl
    have hz : key z ≤ key (if key x < key z then z else x) := by
      split
      · exact le_rfl
      · exact le_of_not_lt (by assumption)
    rcases List.mem_cons.mp hy with rfl | hy2
    · exact le_trans hx (ih _ _ (by simp))
    · rcases List.mem_cons.mp hy2 with rfl | hy3
      · exact le_trans hz (ih _ _ (by simp))
      · exact ih _ y (by simp [hy3])

/-- C7: for every non-empty cluster, the base record chosen by the
Canonical Merger is a member of the cluster, and its 7-component score
tuple (has DOI, has pdf_url, has real abstract, has real AI summary,
citation count, abstract length, title length) is lexicographically
maximal among the members. -/
theorem merge_base_score_maximal (ps : List Paper) (h : ps ≠ []) :
    merge_base ps ∈ ps
      ∧ ∀ p ∈ ps, score_canonical p ≤ score_canonical (merge_base ps) := by
  cases ps with
  | nil => exact absurd rfl h
  | cons p rest =>
    exact ⟨pyMaxBy_mem score_canonical rest p,
      fun q hq => pyMaxBy_le score_canonical rest p q hq⟩

/-- Witness for the base-record theorem on a two-member cluster where the
DOI-bearing member must win. -/
theorem merge_base_score_maximal_witness :
    merge_base [{ paper_id := some "1", citations := some 3 },
        { paper_id := some "2", doi := some "10.1/z" }]
      ∈ [({ paper_id := some "1", citations := some 3 } : Paper),
        { paper_id := some "2", doi := some "10.1/z" }]
      ∧ ∀ p ∈ [({ paper_id := some "1", citations := some 3 } : Paper),
          { paper_id := some "2", doi := some "10.1/z" }],
          score_canonical p
            ≤ score_canonical (merge_base [{ paper_id := some "1", citations := some 3 },
                { paper_id := some "2", doi := some "10.1/z" }]) :=
  merge_base_score_maximal _ (by decide)

/-- Membership in a set grown by `insertIfAbsent`. -/
theorem mem_insertIfAbsent [DecidableEq α] (x d : α) (l : List α) :
    x ∈ insertIfAbsent d l ↔ x ∈ l ∨ x = d := by
  unfold insertIfAbsent
  split
  · rename_i hd
    exact ⟨Or.inl, fun h => h.elim id (fun he => he ▸ hd)⟩
  · simp [List.mem_append]

/-- Membership in the DOI-set fold, for any starting accumulator. -/
theorem merge_doi_norms_go_mem :
    ∀ (ps : List Paper) (acc : List String) (x : String),
      x ∈ ps.foldl (fun acc p =>
          match normalize_doi p.doi with
          | some d => insertIfAbsent d acc
          | none => acc) acc
        ↔ x ∈ acc ∨ x ∈ ps.filterMap (fun p => normalize_doi p.doi) := by
  intro ps
  induction ps with
  | nil => simp
  | cons p ps ih =>
    intro acc x
    simp only [List.foldl_cons, List.filterMap_cons]
    cases hd : normalize_doi p.doi with
    | none => simp [ih]
    | some d =>
      rw [ih]
      simp [mem_insertIfAbsent]
      tauto

/-- The cluster's DOI set holds exactly the normalized DOIs observed among
its members. -/
theorem mem_merge_doi_norms (ps : List Paper) (x : String) :
    x ∈ merge_doi_norms ps ↔ x ∈ ps.filterMap (fun p => normalize_doi p.doi) := by
  simpa using merge_doi_norms_go_mem ps [] x

/-- A `min`-fold lands in the scanned list and bounds every element. -/
theorem foldl_min_spec [LinearOrder β] :
    ∀ (l : List β) (a : β),
      l.foldl min a ∈ a :: l ∧ ∀ y ∈ a :: l, l.foldl min a ≤ y := by
  intro l
  induction l with
  | nil => intro a; simp
  | cons b bs ih =>
    intro a
    rw [List.foldl_cons]
    obtain ⟨hmem, hle⟩ := ih (min a b)
    have hself : bs.foldl min (min a b) ≤ min a b := hle _ (List.mem_cons_self _ _)
    constructor
    · rcases List.mem_cons.mp hmem with h | h
      · rcases min_choice a b with h2 | h2
        · rw [h, h2]; exact List.mem_cons_self _ _
        · rw [h, h2]; exact List.mem_cons_of_mem _ (List.mem_cons_self _ _)
      · exact List.mem_cons_of_mem _ (List.mem_cons_of_mem _ h)
    · intro y hy
      rcases List.mem_cons.mp hy with h | hy2
      · rw [h]; exact le_trans hself (min_le_left a b)
      · rcases List.mem_cons.mp hy2 with h | hy3
        · rw [h]; exact le_trans hself (min_le_right a b)
        · exact hle y (List.mem_cons_of_mem _ hy3)

/-- `sorted(xs)[0]` of a non-empty list: its least element. -/
theorem listMinStr_spec (l : List String) (hl : l ≠ []) :
    ∃ m, listMinStr l = some m ∧ m ∈ l ∧ ∀ y ∈ l, m ≤ y := by
  cases l with
  | nil => exact absurd rfl hl
  | cons a as => exact ⟨_, rfl, (foldl_min_spec as a).1, (foldl_min_spec as a).2⟩

/-- A fold whose step preserves a projection preserves it overall. -/
theorem foldl_proj_eq {β γ : Type} (proj : Paper → γ) (f : Paper → β → Paper)
    (h : ∀ c p, proj (f c p) = proj c) :
    ∀ (l : List β) (c : Paper), proj (l.foldl f c) = proj c := by
  intro l
  induction l with
  | nil => intro c; rfl
  | cons b bs ih => intro c; rw [List.foldl_cons, ih, h]

/-- The PDF overlay changes only `pdf_url`/`pdf_source`. -/
theorem merge_overlay_pdf_pres (ps : List Paper) (c : Paper) :
    (merge_overlay_pdf ps c).doi = c.doi
      ∧ (merge_overlay_pdf ps c).citations = c.citations
      ∧ (merge_overlay_pdf ps c).paper_id = c.paper_id := by
  simp only [merge_overlay_pdf]
  refine ⟨?_, ?_, ?_⟩ <;> (split <;> split <;> rfl)

/-- The title-overlay loop body preserves any projection untouched by a
title update. -/
theorem merge_title_step_proj {γ : Type} (proj : Paper → γ)
    (hp : ∀ (c : Paper) (t : String), proj { c with title := some t } = proj c) :
    ∀ (c p : Paper),
      proj (match tval p.title with
        | some t => if (c.title.getD "").length < t.length then { c with title := some t } else c
        | none => c) = proj c := by
  intro c p
  cases h : tval p.title
  · rfl
  · dsimp only
    split
    · apply hp
    · rfl

/-- The title overlay changes only `title`. -/
theorem merge_overlay_title_pres (ps : List Paper) (c : Paper) :
    (merge_overlay_title ps c).doi = c.doi
      ∧ (merge_overlay_title ps c).citations = c.citations
      ∧ (merge_overlay_title ps c).paper_id = c.paper_id := by
  unfold merge_overlay_title
  exact ⟨foldl_proj_eq Paper.doi _ (merge_title_step_proj Paper.doi (fun c t => rfl)) ps c,
    foldl_proj_eq Paper.citations _ (merge_title_step_proj Paper.citations (fun c t => rfl)) ps c,
    foldl_proj_eq Paper.paper_id _ (merge_title_step_proj Paper.paper_id (fun c t => rfl)) ps c⟩

/-- The authors-overlay loop body preserves any projection untouched by an
authors update. -/
theorem merge_authors_step_proj {γ : Type} (proj : Paper → γ)
    (hp : ∀ (c : Paper) (a : String), proj { c with authors := some a } = proj c) :
    ∀ (c p : Paper),
      proj (match tval p.authors with
        | some a => if (c.authors.getD "").length < a.length then { c with authors := some a } else c
        | none => c) = proj c := by
  intro c p
  cases h : tval p.authors
  · rfl
  · dsimp only
    split
    · apply hp
    · rfl

/-- The authors overlay changes only `authors`. -/
theorem merge_overlay_authors_pres (ps : List Paper) (c : Paper) :
    (merge_overlay_authors ps c).doi = c.doi
      ∧ (merge_overlay_authors ps c).citations = c.citations
      ∧ (merge_overlay_authors ps c).paper_id = c.paper_id := by
  unfold merge_overlay_authors
  exact ⟨foldl_proj_eq Paper.doi _ (merge_authors_step_proj Paper.doi (fun c a => rfl)) ps c,
    foldl_proj_eq Paper.citations _ (merge_authors_step_proj Paper.citations (fun c a => rfl)) ps c,
    foldl_proj_eq Paper.paper_id _ (merge_authors_step_proj Paper.paper_id (fun c a => rfl)) ps c⟩

/-- The year overlay changes only `year`. -/
theorem merge_overlay_year_pres (ps : List Paper) (c : Paper) :
    (merge_overlay_year ps c).doi = c.doi
      ∧ (merge_overlay_year ps c).citations = c.citations
      ∧ (merge_overlay_year ps c).paper_id = c.paper_id := by
  simp only [merge_overlay_year]
  refine ⟨?_, ?_, ?_⟩ <;> first
    | rfl
    | (split <;> rfl)

/-- The counts overlay changes only the two citation fields. -/
theorem merge_overlay_counts_pres (ps : List Paper) (c : Paper) :
    (merge_overlay_counts ps c).doi = c.doi
      ∧ (merge_overlay_counts ps c).paper_id = c.paper_id := ⟨rfl, rfl⟩

/-- The abstract overlay changes only `abstract`. -/
theorem merge_overlay_abstract_pres (ps : List Paper) (c : Paper) :
    (merge_overlay_abstract ps c).doi = c.doi
      ∧ (merge_overlay_abstract ps c).citations = c.citations
      ∧ (merge_overlay_abstract ps c).paper_id = c.paper_id := by
  unfold merge_overlay_abstract
  refine ⟨?_, ?_, ?_⟩ <;> (split <;> first
    | rfl
    | (split <;> rfl))

/-- The AI-summary overlay changes only `tldr`. -/
theorem merge_overlay_tldr_pres (ps : List Paper) (c : Paper) :
    (merge_overlay_tldr ps c).doi = c.doi
      ∧ (merge_overlay_tldr ps c).citations = c.citations
      ∧ (merge_overlay_tldr ps c).paper_id = c.paper_id := by
  unfold merge_overlay_tldr
  refine ⟨?_, ?_, ?_⟩ <;> (split <;> first
    | rfl
    | (split <;> rfl))

/-- The concepts overlay changes only `concepts`. -/
theorem merge_overlay_concepts_pres (ps : List Paper) (c : Paper) :
    (merge_overlay_concepts ps c).doi = c.doi
      ∧ (merge_overlay_concepts ps c).citations = c.citations
      ∧ (merge_overlay_concepts ps c).paper_id = c.paper_id := by
  simp only [merge_overlay_concepts]
  refine ⟨?_, ?_, ?_⟩ <;> (split <;> rfl)

/-- The venue overlay changes only `venue`. -/
theorem merge_overlay_venue_pres (ps : List Paper) (c : Paper) :
    (merge_overlay_venue ps c).doi = c.doi
      ∧ (merge_overlay_venue ps c).citations = c.citations
      ∧ (merge_overlay_venue ps c).paper_id = c.paper_id := by
  unfold merge_overlay_venue
  refine ⟨?_, ?_, ?_⟩ <;> (split <;> first
    | rfl
    | (split <;> rfl))

/-- The quality overlay changes only `quality`. -/
theorem merge_overlay_quality_pres (ps : List Paper) (c : Paper) :
    (merge_overlay_quality ps c).doi = c.doi
      ∧ (merge_overlay_quality ps c).citations = c.citations
      ∧ (merge_overlay_quality ps c).paper_id = c.paper_id := by
  unfold merge_overlay_quality
  refine ⟨?_, ?_, ?_⟩ <;> (split <;> first
    | rfl
    | (split <;> rfl))

/-- The provenance overlay changes only provenance fields. -/
theorem merge_overlay_provenance_pres (ps : List Paper) (c : Paper) :
    (merge_overlay_provenance ps c).doi = c.doi
      ∧ (merge_overlay_provenance ps c).citations = c.citations := by
  simp only [merge_overlay_provenance]
  constructor <;> (split <;> split <;> split <;> rfl)

/-- The DOI overlay changes only `doi`. -/
theorem merge_overlay_doi_pres (ps : List Paper) (c : Paper) :
    (merge_overlay_doi ps c).citations = c.citations
      ∧ (merge_overlay_doi ps c).paper_id = c.paper_id := by
  unfold merge_overlay_doi
  constructor <;> (split <;> rfl)

/-- The merged record's `doi` is the least element of the cluster's DOI
set when that set is non-empty, and the base record's `doi` otherwise. -/
theorem merge_paper_group_doi (ps : List Paper) :
    (merge_paper_group ps).doi
      = match listMinStr (merge_doi_norms ps) with
        | some m => some m
        | none => (merge_base ps).doi := by
  unfold merge_paper_group
  rw [(merge_overlay_provenance_pres _ _).1, (merge_overlay_quality_pres _ _).1,
    (merge_overlay_venue_pres _ _).1, (merge_overlay_concepts_pres _ _).1,
    (merge_overlay_tldr_pres _ _).1, (merge_overlay_abstract_pres _ _).1,
    (merge_overlay_counts_pres _ _).1, (merge_overlay_year_pres _ _).1,
    (merge_overlay_authors_pres _ _).1, (merge_overlay_title_pres _ _).1,
    (merge_overlay_pdf_pres _ _).1]
  unfold merge_overlay_doi
  split <;> rfl

/-- C8: whenever some member of the cluster has a normalized DOI, the
merged canonical record's `doi` equals the lexicographically smallest
normalized DOI observed among the cluster's members. -/
theorem merge_doi_smallest (ps : List Paper)
    (h : ∃ p ∈ ps, (normalize_doi p.doi).isSome) :
    ∃ m, (merge_paper_group ps).doi = some m
      ∧ m ∈ ps.filterMap (fun p => normalize_doi p.doi)
      ∧ ∀ d ∈ ps.filterMap (fun p => normalize_doi p.doi), m ≤ d := by
  have hne : merge_doi_norms ps ≠ [] := by
    obtain ⟨p, hp, hs⟩ := h
    obtain ⟨d, hd⟩ := Option.isSome_iff_exists.mp hs
    intro hnil
    have hmem : d ∈ merge_doi_norms ps :=
      (mem_merge_doi_norms ps d).mpr (List.mem_filterMap.mpr ⟨p, hp, hd⟩)
    rw [hnil] at hmem
    simp at hmem
  obtain ⟨m, hm, hmem, hlb⟩ := listMinStr_spec _ hne
  refine ⟨m, ?_, (mem_merge_doi_norms ps m).mp hmem,
    fun d hd => hlb d ((mem_merge_doi_norms ps d).mpr hd)⟩
  rw [merge_paper_group_doi, hm]

/-- Witness for the smallest-DOI theorem: two members with DOIs that
lower-case to different values; the smaller one is picked. -/
theorem merge_doi_smallest_witness :
    ∃ m, (merge_paper_group [{ paper_id := some "1", doi := some "10.1/B" },
          { paper_id := some "2", doi := some "10.1/a" }]).doi = some m
      ∧ m ∈ ([{ paper_id := some "1", doi := some "10.1/B" },
          { paper_id := some "2", doi := some "10.1/a" }] : List Paper).filterMap
            (fun p => normalize_doi p.doi)
      ∧ ∀ d ∈ ([{ paper_id := some "1", doi := some "10.1/B" },
          { paper_id := some "2", doi := some "10.1/a" }] : List Paper).filterMap
            (fun p => normalize_doi p.doi), m ≤ d :=
  merge_doi_smallest _ (by decide)

/-- The merged record's citation count is the maximum over the base value
and all members. -/
theorem merge_paper_group_citations (ps : List Paper) :
    (merge_paper_group ps).citations
      = some (ps.foldl (fun m p => max m (p.citations.getD 0))
          ((merge_base ps).citations.getD 0)) := by
  unfold merge_paper_group
  rw [(merge_overlay_provenance_pres _ _).2, (merge_overlay_quality_pres _ _).2.1,
    (merge_overlay_venue_pres _ _).2.1, (merge_overlay_concepts_pres _ _).2.1,
    (merge_overlay_tldr_pres _ _).2.1, (merge_overlay_abstract_pres _ _).2.1]
  have hc : (merge_overlay_year ps (merge_overlay_authors ps (merge_overlay_title ps
      (merge_overlay_pdf ps (merge_overlay_doi ps (merge_base ps)))))).citations
      = (merge_base ps).citations := by
    rw [(merge_overlay_year_pres _ _).2.1, (merge_overlay_authors_pres _ _).2.1,
      (merge_overlay_title_pres _ _).2.1, (merge_overlay_pdf_pres _ _).2.1,
      (merge_overlay_doi_pres _ _).1]
  simp only [merge_overlay_counts]
  rw [hc]

/-- The base record belongs to a non-empty cluster. -/
theorem merge_base_mem (ps : List Paper) (h : ps ≠ []) : merge_base ps ∈ ps := by
  cases ps with
  | nil => exact absurd rfl h
  | cons p rest => exact pyMaxBy_mem score_canonical rest p

/-- A `max`-fold lands in the scanned list and dominates every element. -/
theorem foldl_max_spec [LinearOrder β] :
    ∀ (l : List β) (a : β),
      l.foldl max a ∈ a :: l ∧ ∀ y ∈ a :: l, y ≤ l.foldl max a := by
  intro l
  induction l with
  | nil => intro a; simp
  | cons b bs ih =>
    intro a
    rw [List.foldl_cons]
    obtain ⟨hmem, hle⟩ := ih (max a b)
    have hself : max a b ≤ bs.foldl max (max a b) := hle _ (List.mem_cons_self _ _)
    constructor
    · rcases List.mem_cons.mp hmem with h | h
      · rcases max_choice a b with h2 | h2
        · rw [h, h2]; exact List.mem_cons_self _ _
        · rw [h, h2]; exact List.mem_cons_of_mem _ (List.mem_cons_self _ _)
      · exact List.mem_cons_of_mem _ (List.mem_cons_of_mem _ h)
    · intro y hy
      rcases List.mem_cons.mp hy with h | hy2
      · rw [h]; exact le_trans (le_max_left a b) hself
      · rcases List.mem_cons.mp hy2 with h | hy3
        · rw [h]; exact le_trans (le_max_right a b) hself
        · exact hle y (List.mem_cons_of_mem _ hy3)

/-- `max`-folds over permuted lists agree when each starting value lies in
its own list. -/
theorem foldl_max_perm_eq [LinearOrder β] (v1 v2 : List β) (b1 b2 : β)
    (hb1 : b1 ∈ v1) (hb2 : b2 ∈ v2) (hp : v1.Perm v2) :
    v1.foldl max b1 = v2.foldl max b2 := by
  obtain ⟨hm1, hle1⟩ := foldl_max_spec v1 b1
  obtain ⟨hm2, hle2⟩ := foldl_max_spec v2 b2
  have hr1 : v1.foldl max b1 ∈ v1 := by
    rcases List.mem_cons.mp hm1 with h | h
    · rw [h]; exact hb1
    · exact h
  have hr2 : v2.foldl max b2 ∈ v2 := by
    rcases List.mem_cons.mp hm2 with h | h
    · rw [h]; exact hb2
    · exact h
  exact le_antisymm
    (hle2 _ (List.mem_cons_of_mem _ (hp.mem_iff.mp hr1)))
    (hle1 _ (List.mem_cons_of_mem _ (hp.mem_iff.mpr hr2)))

/-- C2 counterexample: permuting the input changes the canonical records
themselves, not just the order of `duplicate_paper_ids` — two records with
the same DOI and tied scores merge either way, but the surviving `venue`
is the first record's, so the two orders give different field values. -/
theorem dedup_order_counterexample :
    (deduplicate_papers (fun _ _ => 0) (mkRat 95 100)
        [{ paper_id := some "1", title := some "T", doi := some "10.1/a", venue := some "v1" },
         { paper_id := some "2", title := some "T", doi := some "10.1/a", venue := some "v2" }]).1.map
          (fun p => p.venue) = [some "v1"]
      ∧ (deduplicate_papers (fun _ _ => 0) (mkRat 95 100)
        [{ paper_id := some "2", title := some "T", doi := some "10.1/a", venue := some "v2" },
         { paper_id := some "1", title := some "T", doi := some "10.1/a", venue := some "v1" }]).1.map
          (fun p => p.venue) = [some "v2"] := by
  constructor <;> decide

/-- C2 amended: full order invariance fails (see the counterexample: tied
base-record selection makes tie-dependent fields follow the input order).
What is order invariant is the merge stage's derived values on a fixed
cluster: for any permutation of a cluster's members, the merged `doi`
(smallest normalized DOI, whenever some member has one) and the merged
`citations` (maximum over members) are unchanged. -/
theorem merge_perm_invariant (ps ps' : List Paper) (hperm : ps.Perm ps')
    (hdoi : ∃ p ∈ ps, (normalize_doi p.doi).isSome) :
    (merge_paper_group ps).doi = (merge_paper_group ps').doi
      ∧ (merge_paper_group ps).citations = (merge_paper_group ps').citations := by
  have hne : ps ≠ [] := by
    obtain ⟨p, hp, _⟩ := hdoi
    intro h
    rw [h] at hp
    simp at hp
  have hne' : ps' ≠ [] := by
    intro h
    exact hne (List.Perm.eq_nil (h ▸ hperm))
  constructor
  · have hnorm1 : merge_doi_norms ps ≠ [] := by
      obtain ⟨p, hp, hs⟩ := hdoi
      obtain ⟨d, hd⟩ := Option.isSome_iff_exists.mp hs
      intro hnil
      have hmem : d ∈ merge_doi_norms ps :=
        (mem_merge_doi_norms ps d).mpr (List.mem_filterMap.mpr ⟨p, hp, hd⟩)
      rw [hnil] at hmem
      simp at hmem
    have hfperm : (ps.filterMap (fun p => normalize_doi p.doi)).Perm
        (ps'.filterMap (fun p => normalize_doi p.doi)) := hperm.filterMap _
    have hnorm2 : merge_doi_norms ps' ≠ [] := by
      intro hnil
      obtain ⟨m, _, hmem, _⟩ := listMinStr_spec _ hnorm1
      have : m ∈ merge_doi_norms ps' :=
        (mem_merge_doi_norms ps' m).mpr
          (hfperm.mem_iff.mp ((mem_merge_doi_norms ps m).mp hmem))
      rw [hnil] at this
      simp at this
    obtain ⟨m1, hm1, hmem1, hlb1⟩ := listMinStr_spec _ hnorm1
    obtain ⟨m2, hm2, hmem2, hlb2⟩ := listMinStr_spec _ hnorm2
    have heq : m1 = m2 := by
      apply le_antisymm
      · exact hlb1 m2 ((mem_merge_doi_norms ps m2).mpr
          (hfperm.mem_iff.mpr ((mem_merge_doi_norms ps' m2).mp hmem2)))
      · exact hlb2 m1 ((mem_merge_doi_norms ps' m1).mpr
          (hfperm.mem_iff.mp ((mem_merge_doi_norms ps m1).mp hmem1)))
    rw [merge_paper_group_doi, merge_paper_group_doi, hm1, hm2, heq]
  · rw [merge_paper_group_citations, merge_paper_group_citations]
    rw [show ps.foldl (fun m p => max m (p.citations.getD 0))
          ((merge_base ps).citations.getD 0)
        = (ps.map (fun p => p.citations.getD 0)).foldl max
          ((merge_base ps).citations.getD 0) from (List.foldl_map _ _ _ _).symm]
    rw [show ps'.foldl (fun m p => max m (p.citations.getD 0))
          ((merge_base ps').citations.getD 0)
        = (ps'.map (fun p => p.citations.getD 0)).foldl max
          ((merge_base ps').citations.getD 0) from (List.foldl_map _ _ _ _).symm]
    congr 1
    exact foldl_max_perm_eq _ _ _ _
      (List.mem_map_of_mem _ (merge_base_mem ps hne))
      (List.mem_map_of_mem _ (merge_base_mem ps' hne'))
      (hperm.map _)

/-- Witness for the merge permutation-invariance theorem on a two-member
cluster listed in both orders. -/
theorem merge_perm_invariant_witness :
    (merge_paper_group [{ paper_id := some "1", doi := some "10.1/b", citations := some 4 },
        { paper_id := some "2", doi := some "10.1/a", citations := some 9 }]).doi
      = (merge_paper_group [{ paper_id := some "2", doi := some "10.1/a", citations := some 9 },
        { paper_id := some "1", doi := some "10.1/b", citations := some 4 }]).doi
      ∧ (merge_paper_group [{ paper_id := some "1", doi := some "10.1/b", citations := some 4 },
        { paper_id := some "2", doi := some "10.1/a", citations := some 9 }]).citations
      = (merge_paper_group [{ paper_id := some "2", doi := some "10.1/a", citations := some 9 },
        { paper_id := some "1", doi := some "10.1/b", citations := some 4 }]).citations :=
  merge_perm_invariant _ _ (List.Perm.swap _ _ []) (by decide)

/-- A key absent from every entry is not found. -/
theorem alookup_none_of (m : List (String × ℕ)) (k : String)
    (h : ∀ kv ∈ m, kv.1 ≠ k) : alookup m k = none := by
  induction m with
  | nil => rfl
  | cons kv rest ih =>
    obtain ⟨k', v⟩ := kv
    rw [show alookup ((k', v) :: rest) k = if k' = k then some v else alookup rest k from rfl]
    rw [if_neg (h (k', v) (List.mem_cons_self _ _)), ih (fun kv hkv => h kv (List.mem_cons_of_mem _ hkv))]

/-- Entries after a `setdefault` come from the map or are the new pair. -/
theorem mem_setdefaultA (m : List (String × ℕ)) (k : String) (v : ℕ) (kv : String × ℕ)
    (h : kv ∈ setdefaultA m k v) : kv ∈ m ∨ kv = (k, v) := by
  unfold setdefaultA at h
  split at h
  · exact Or.inl h
  · rcases List.mem_append.mp h with h1 | h1
    · exact Or.inl h1
    · simp at h1
      exact Or.inr h1

/-- Entries after folding `setdefault` over a list of keys come from the
map or carry one of those keys with the given value. -/
theorem mem_ext_fold (ids : List String) :
    ∀ (m : List (String × ℕ)) (v : ℕ) (kv : String × ℕ),
      kv ∈ ids.foldl (fun m e => setdefaultA m e v) m →
      kv ∈ m ∨ (kv.1 ∈ ids ∧ kv.2 = v) := by
  induction ids with
  | nil => intro m v kv h; exact Or.inl h
  | cons e es ih =>
    intro m v kv h
    rw [List.foldl_cons] at h
    rcases ih _ _ _ h with h1 | h1
    · rcases mem_setdefaultA _ _ _ _ h1 with h2 | h2
      · exact Or.inl h2
      · right
        rw [h2]
        exact ⟨List.mem_cons_self _ _, rfl⟩
    · exact Or.inr ⟨List.mem_cons_of_mem _ h1.1, h1.2⟩

/-- No id of the record is indexed: the external-id loop finds nothing. -/
theorem ext_first_hit_none (m : List (String × ℕ)) (ids : List String)
    (h : ∀ e ∈ ids, alookup m e = none) : ext_first_hit m ids = none := by
  induction ids with
  | nil => rfl
  | cons e es ih =>
    rw [show ext_first_hit m (e :: es)
        = (match alookup m e with
           | some i => some i
           | none => ext_first_hit m es) from rfl]
    rw [h e (List.mem_cons_self _ _)]
    exact ih (fun e' he' => h e' (List.mem_cons_of_mem _ he'))

/-- When every cluster is skipped, the fuzzy scan keeps its accumulator. -/
theorem fuzzyBest_all_skip (ratio : String → String → ℚ) (t : String) (dn : Option String) :
    ∀ (gs : List PaperGroup) (i : ℕ) (acc : Option ℕ × ℚ),
      (∀ g ∈ gs, groupRatio ratio t dn g = none) →
      fuzzyBest ratio t dn gs i acc = acc := by
  intro gs
  induction gs with
  | nil => intro i acc _; rfl
  | cons g rest ih =>
    intro i acc h
    rw [show fuzzyBest ratio t dn (g :: rest) i acc
        = fuzzyBest ratio t dn rest (i + 1)
            (match groupRatio ratio t dn g with
             | none => acc
             | some r => if acc.2 < r then (some i, r) else acc) from rfl]
    rw [h g (List.mem_cons_self _ _)]
    exact ih _ _ (fun g' hg' => h g' (List.mem_cons_of_mem _ hg'))

/-- A cluster in DOI conflict with the record is skipped by the fuzzy scan. -/
theorem groupRatio_none_of_conflict (ratio : String → String → ℚ) (t : String)
    (dn : Option String) (g : PaperGroup) (h : doi_conflict g dn = true) :
    groupRatio ratio t dn g = none := by
  unfold groupRatio
  cases tval g.title_norm
  · rfl
  · simp [h]

/-- When every cluster conflicts with the record's DOI, the fuzzy matcher
returns no cluster. -/
theorem find_fuzzy_none_of_conflict (ratio : String → String → ℚ) (thr : ℚ)
    (gs : List PaperGroup) (t : String) (dn : Option String)
    (h : ∀ g ∈ gs, doi_conflict g dn = true) :
    (find_fuzzy_title_group ratio thr gs t dn).1 = none := by
  unfold find_fuzzy_title_group
  rw [fuzzyBest_all_skip ratio t dn gs 0 (none, 0)
    (fun g hg => groupRatio_none_of_conflict ratio t dn g (h g hg))]
  dsimp only
  split <;> rfl

/-- Normalized DOIs are never the empty string. -/
theorem normalize_doi_ne_empty (x : Option String) (d : String)
    (h : normalize_doi x = some d) : d ≠ "" := by
  cases x with
  | none => simp [normalize_doi] at h
  | some s =>
    by_cases hs : s = ""
    · subst hs; simp [normalize_doi] at h
    · simp only [normalize_doi, if_neg hs] at h
      split at h
      · simp at h
      · rename_i hne
        injection h with h2
        intro hd
        rw [hd] at h2
        exact hne (congrArg String.data h2)

/-- `getD` below the length reads the list. -/
theorem getD_lt {α : Type} : ∀ (l : List α) (i : ℕ) (x : α) (h : i < l.length),
    l.getD i x = l.get ⟨i, h⟩ := by
  intro l
  induction l with
  | nil => intro i x h; simp at h
  | cons a l ih =>
    intro i x h
    cases i with
    | zero => rfl
    | succ i => exact ih i x (by simpa using h)

/-- `getD` at the length of the prefix reads the appended element. -/
theorem getD_append_length {α : Type} : ∀ (G : List α) (g0 x : α),
    (G ++ [g0]).getD G.length x = g0 := by
  intro G
  induction G with
  | nil => intro g0 x; rfl
  | cons a G ih => intro g0 x; simpa using ih g0 x

/-- `getD` below the prefix length ignores the appended part. -/
theorem getD_append_lt {α : Type} : ∀ (G M : List α) (i : ℕ) (x : α), i < G.length →
    (G ++ M).getD i x = G.getD i x := by
  intro G
  induction G with
  | nil => intro M i x h; simp at h
  | cons a G ih =>
    intro M i x h
    cases i with
    | zero => rfl
    | succ i => exact ih M i x (by simpa using h)

/-- `set` at the length of the prefix replaces the appended element. -/
theorem set_append_length {α : Type} : ∀ (G : List α) (g0 g1 : α),
    (G ++ [g0]).set G.length g1 = G ++ [g1] := by
  intro G
  induction G with
  | nil => intro g0 g1; rfl
  | cons a G ih => intro g0 g1; simpa [List.set] using ih g0 g1

/-- Reading the `doi` key of `paper_keys`. -/
theorem paper_keys_doi (p : Paper) : (paper_keys p).doi = normalize_doi p.doi := rfl

/-- When the DOI, external-id, composite-key, exact-title and fuzzy-title
candidate searches all miss, the cascade falls through to the PDF-URL
step. -/
theorem select_group_miss (ratio : String → String → ℚ) (thr : ℚ) (st : DedupState)
    (k : PaperKeys)
    (h1 : ∀ d, tval k.doi = some d → alookup st.doiMap d = none)
    (h2 : ∀ e ∈ k.ext_ids, alookup st.extMap e = none)
    (h3 : ∀ s1, tval k.tya = some s1 → alookup st.tyaMap s1 = none)
    (h4 : ∀ t c, tval k.title = some t → alookup st.titleMap t = some c →
        doi_conflict (st.groups.getD c {}) k.doi = true)
    (h5 : ∀ t, tval k.title = some t →
        (find_fuzzy_title_group ratio thr st.groups t k.doi).1 = none) :
    (select_group ratio thr st k).1 = pdf_step st k := by
  unfold select_group
  split
  · rename_i i heq
    exfalso
    cases hkd : tval k.doi with
    | none => rw [hkd] at heq; simp at heq
    | some d =>
      rw [hkd] at heq
      simp only [h1 d hkd] at heq
      exact Option.noConfusion heq
  · split
    · rename_i i heq
      exfalso
      rw [ext_first_hit_none _ _ h2] at heq
      exact Option.noConfusion heq
    · split
      · rename_i i heq
        exfalso
        cases hkt : tval k.tya with
        | none => rw [hkt] at heq; simp at heq
        | some s1 =>
          rw [hkt] at heq
          simp only [h3 s1 hkt] at heq
          exact Option.noConfusion heq
      · split
        · rename_i t heq
          split
          · rename_i i heq2
            exfalso
            cases hl : alookup st.titleMap t with
            | none => rw [hl] at heq2; simp at heq2
            | some c =>
              rw [hl] at heq2
              simp only [h4 t c heq hl] at heq2
              exact Option.noConfusion heq2
          · dsimp only
            split
            · rename_i i heq3
              exfalso
              rw [h5 t heq] at heq3
              exact Option.noConfusion heq3
            · rfl
        · rfl

/-- A truthy optional string is the string itself. -/
theorem tval_some (x : Option String) (s : String) (h : tval x = some s) :
    x = some s := by
  cases x with
  | none => simp [tval] at h
  | some s' =>
    simp only [tval] at h
    split at h
    · exact Option.noConfusion h
    · exact h

/-- A successful lookup names an entry of the association list. -/
theorem alookup_mem (m : List (String × ℕ)) (k : String) (v : ℕ)
    (h : alookup m k = some v) : (k, v) ∈ m := by
  induction m with
  | nil => exact Option.noConfusion h
  | cons kv rest ih =>
    obtain ⟨k', v'⟩ := kv
    rw [show alookup ((k', v') :: rest) k
        = if k' = k then some v' else alookup rest k from rfl] at h
    split at h
    · rename_i hk
      injection h with h2
      rw [hk, h2]
      exact List.mem_cons_self _ _
    · exact List.mem_cons_of_mem _ (ih h)

/-- The member-side update appends the record and grows the DOI set. -/
theorem group_update_spec (g : PaperGroup) (p : Paper) (k : PaperKeys) :
    (group_update g p k).papers = g.papers ++ [p]
      ∧ (group_update g p k).doi_norms
        = (match tval k.doi with
           | some d => insertIfAbsent d g.doi_norms
           | none => g.doi_norms) := by
  unfold group_update
  cases tval k.doi <;> cases tval k.title <;>
    first
      | exact ⟨rfl, rfl⟩
      | (constructor <;> (dsimp only; split <;> rfl))

/-- Index-side shape of `_add_to_group`: the cluster at `gi` is updated and
each truthy key goes through `setdefault`. -/
theorem add_to_group_spec (st : DedupState) (gi : ℕ) (p : Paper) (k : PaperKeys) :
    (add_to_group st gi p k).groups
        = st.groups.set gi (group_update (st.groups.getD gi {}) p k)
      ∧ (add_to_group st gi p k).doiMap
        = (match tval k.doi with
           | some d => setdefaultA st.doiMap d gi
           | none => st.doiMap)
      ∧ (add_to_group st gi p k).extMap
        = k.ext_ids.foldl (fun m e => setdefaultA m e gi) st.extMap
      ∧ (add_to_group st gi p k).tyaMap
        = (match tval k.tya with
           | some s1 => setdefaultA st.tyaMap s1 gi
           | none => st.tyaMap)
      ∧ (add_to_group st gi p k).titleMap
        = (match tval k.title with
           | some t => setdefaultA st.titleMap t gi
           | none => st.titleMap)
      ∧ (add_to_group st gi p k).pdfMap
        = (match tval k.pdf with
           | some u => setdefaultA st.pdfMap u gi
           | none => st.pdfMap) := by
  unfold add_to_group
  cases tval k.doi <;> cases tval k.tya <;> cases tval k.title <;> cases tval k.pdf <;>
    exact ⟨rfl, rfl, rfl, rfl, rfl, rfl⟩

/-- An in-range `getD` is a member. -/
theorem getD_mem {α : Type} (l : List α) (i : ℕ) (x : α) (h : i < l.length) :
    l.getD i x ∈ l := by
  rw [getD_lt l i x h]
  exact List.get_mem l i h

/-- Separation relation between an earlier record `q` and a later record
`p`: their normalized DOIs (when present) differ, they share no external
id, and their composite keys differ. -/
def PaperSep (q p : Paper) : Prop :=
  (∀ a b, normalize_doi q.doi = some a → normalize_doi p.doi = some b → a ≠ b)
    ∧ (∀ e ∈ (paper_keys p).ext_ids, e ∉ (paper_keys q).ext_ids)
    ∧ (∀ s, (paper_keys p).tya = some s → (paper_keys q).tya ≠ some s)

/-- Invariant of the cluster-builder state over separated, DOI-carrying
records: one singleton cluster per processed record holding exactly its
DOI, and every index entry traceable to a processed record. -/
structure SepInv (done : List Paper) (st : DedupState) : Prop where
  glen : st.groups.length = done.length
  gget : ∀ i, i < done.length →
      (st.groups.getD i {}).papers = [done.getD i {}]
        ∧ ∃ d, normalize_doi (done.getD i {}).doi = some d
            ∧ (st.groups.getD i {}).doi_norms = [d]
  doim : ∀ kv ∈ st.doiMap, ∃ q ∈ done, normalize_doi q.doi = some kv.1
  extm : ∀ kv ∈ st.extMap, ∃ q ∈ done, kv.1 ∈ (paper_keys q).ext_ids
  tyam : ∀ kv ∈ st.tyaMap, ∃ q ∈ done, (paper_keys q).tya = some kv.1
  titm : ∀ kv ∈ st.titleMap, kv.2 < st.groups.length
  pdfm : ∀ kv ∈ st.pdfMap, kv.2 < st.groups.length

/-- A record whose select cascade finds no cluster allocates a fresh
singleton cluster and writes its keys against it. -/
theorem process_paper_fresh (ratio : String → String → ℚ) (thr : ℚ)
    (st : DedupState) (p : Paper)
    (hsel : (select_group ratio thr st (paper_keys p)).1 = none) :
    process_paper ratio thr st p = add_to_group
      { st with
        fuzzy_warnings := st.fuzzy_warnings
          ++ (select_group ratio thr st (paper_keys p)).2.toList,
        groups := st.groups
          ++ [{ papers := [], title_norm := (paper_keys p).title, doi_norms := [] }] }
      st.groups.length p (paper_keys p) := by
  unfold process_paper
  dsimp only
  rw [hsel]

/-- Induction step: a record separated from everything processed so far
extends the state with one more singleton cluster. -/
theorem sep_step (ratio : String → String → ℚ) (thr : ℚ) (done : List Paper)
    (st : DedupState) (p : Paper) (hinv : SepInv done st)
    (hd : (normalize_doi p.doi).isSome)
    (hsep : ∀ q ∈ done, PaperSep q p) :
    SepInv (done ++ [p]) (process_paper ratio thr st p) := by
  obtain ⟨d, hdd⟩ := Option.isSome_iff_exists.mp hd
  have hdne : d ≠ "" := normalize_doi_ne_empty _ _ hdd
  have hkdoi : tval (paper_keys p).doi = some d := by
    rw [paper_keys_doi, hdd]
    simp [tval, hdne]
  have hconf : ∀ c, c < st.groups.length →
      doi_conflict (st.groups.getD c {}) (paper_keys p).doi = true := by
    intro c hc
    have hc' : c < done.length := hinv.glen ▸ hc
    obtain ⟨_, dj, hdj, hnormj⟩ := hinv.gget c hc'
    have hmem : done.getD c {} ∈ done := getD_mem done c {} hc'
    have hne2 : dj ≠ d := (hsep _ hmem).1 dj d hdj hdd
    unfold doi_conflict
    rw [hkdoi]
    dsimp only
    rw [hnormj]
    simp [Ne.symm hne2]
  have hmiss : (select_group ratio thr st (paper_keys p)).1 = pdf_step st (paper_keys p) := by
    apply select_group_miss
    · intro d2 hd2
      rw [hkdoi] at hd2
      injection hd2 with hde
      apply alookup_none_of
      intro kv hkv hkvd
      obtain ⟨q, hq, hnq⟩ := hinv.doim kv hkv
      exact (hsep q hq).1 kv.1 d hnq hdd (hkvd.trans hde.symm)
    · intro e he
      apply alookup_none_of
      intro kv hkv hkve
      obtain ⟨q, hq, hm⟩ := hinv.extm kv hkv
      exact (hsep q hq).2.1 e he (hkve ▸ hm)
    · intro s1 hs1
      have hk : (paper_keys p).tya = some s1 := tval_some _ _ hs1
      apply alookup_none_of
      intro kv hkv hkvs
      exact absurd ((hkvs ▸ (hinv.tyam kv hkv) : ∃ q ∈ done, (paper_keys q).tya = some s1))
        (by
          rintro ⟨q, hq, hm⟩
          exact (hsep q hq).2.2 s1 hk hm)
    · intro t c _ hl
      exact hconf c (hinv.titm (t, c) (alookup_mem _ _ _ hl))
    · intro t _
      apply find_fuzzy_none_of_conflict
      intro g hg
      obtain ⟨⟨c, hc⟩, hget⟩ := List.mem_iff_get.mp hg
      rw [← hget, ← getD_lt st.groups c {} hc]
      exact hconf c hc
  have hpdf : pdf_step st (paper_keys p) = none := by
    unfold pdf_step
    cases hku : tval (paper_keys p).pdf with
    | none => rfl
    | some u =>
      dsimp only
      cases hlu : alookup st.pdfMap u with
      | none => rfl
      | some c =>
        dsimp only
        rw [hconf c (hinv.pdfm (u, c) (alookup_mem _ _ _ hlu))]
        rfl
  rw [process_paper_fresh ratio thr st p (hmiss.trans hpdf)]
  obtain ⟨hgroups, hdoim, hextm, htyam, htitm, hpdfm⟩ :=
    add_to_group_spec
      { st with
        fuzzy_warnings := st.fuzzy_warnings
          ++ (select_group ratio thr st (paper_keys p)).2.toList,
        groups := st.groups
          ++ [{ papers := [], title_norm := (paper_keys p).title, doi_norms := [] }] }
      st.groups.length p (paper_keys p)
  rw [getD_append_length] at hgroups
  rw [set_append_length] at hgroups
  obtain ⟨hgp, hgd⟩ :=
    group_update_spec { papers := [], title_norm := (paper_keys p).title, doi_norms := [] }
      p (paper_keys p)
  rw [hkdoi] at hgd
  have hgd' : (group_update
      { papers := [], title_norm := (paper_keys p).title, doi_norms := [] }
      p (paper_keys p)).doi_norms = [d] := by
    rw [hgd]
    rfl
  refine ⟨?_, ?_, ?_, ?_, ?_, ?_, ?_⟩
  · rw [hgroups]
    simp [hinv.glen]
  · intro i hi
    rw [hgroups]
    rcases Nat.lt_or_ge i done.length with hlt | hge
    · rw [getD_append_lt _ _ _ _ (hinv.glen ▸ hlt), getD_append_lt _ _ _ _ hlt]
      exact hinv.gget i hlt
    · have hieq : i = done.length := by
        simp only [List.length_append, List.length_singleton] at hi
        omega
      subst hieq
      have e1 : (st.groups ++ [group_update
          { papers := [], title_norm := (paper_keys p).title, doi_norms := [] }
          p (paper_keys p)]).getD done.length {}
          = group_update
            { papers := [], title_norm := (paper_keys p).title, doi_norms := [] }
            p (paper_keys p) := by
        rw [← hinv.glen]
        exact getD_append_length _ _ _
      have e2 : (done ++ [p]).getD done.length {} = p := getD_append_length _ _ _
      rw [e1, e2]
      exact ⟨hgp, d, hdd, hgd'⟩
  · intro kv hkv
    rw [hdoim, hkdoi] at hkv
    rcases mem_setdefaultA _ _ _ _ hkv with h | h
    · obtain ⟨q, hq, hnq⟩ := hinv.doim kv h
      exact ⟨q, List.mem_append_left _ hq, hnq⟩
    · refine ⟨p, List.mem_append_right _ (List.mem_singleton_self p), ?_⟩
      rw [h]
      exact hdd
  · intro kv hkv
    rw [hextm] at hkv
    rcases mem_ext_fold _ _ _ _ hkv with h | h
    · obtain ⟨q, hq, hm⟩ := hinv.extm kv h
      exact ⟨q, List.mem_append_left _ hq, hm⟩
    · exact ⟨p, List.mem_append_right _ (List.mem_singleton_self p), h.1⟩
  · intro kv hkv
    rw [htyam] at hkv
    cases hkt : tval (paper_keys p).tya with
    | none =>
      rw [hkt] at hkv
      obtain ⟨q, hq, hm⟩ := hinv.tyam kv hkv
      exact ⟨q, List.mem_append_left _ hq, hm⟩
    | some s1 =>
      rw [hkt] at hkv
      rcases mem_setdefaultA _ _ _ _ hkv with h | h
      · obtain ⟨q, hq, hm⟩ := hinv.tyam kv h
        exact ⟨q, List.mem_append_left _ hq, hm⟩
      · refine ⟨p, List.mem_append_right _ (List.mem_singleton_self p), ?_⟩
        rw [h]
        exact tval_some _ _ hkt
  · intro kv hkv
    rw [htitm] at hkv
    rw [hgroups]
    simp only [List.length_append, List.length_singleton]
    cases hkt : tval (paper_keys p).title with
    | none =>
      rw [hkt] at hkv
      have := hinv.titm kv hkv
      omega
    | some t =>
      rw [hkt] at hkv
      rcases mem_setdefaultA _ _ _ _ hkv with h | h
      · have := hinv.titm kv h
        omega
      · rw [h]
        omega
  · intro kv hkv
    rw [hpdfm] at hkv
    rw [hgroups]
    simp only [List.length_append, List.length_singleton]
    cases hkt : tval (paper_keys p).pdf with
    | none =>
      rw [hkt] at hkv
      have := hinv.pdfm kv hkv
      omega
    | some u =>
      rw [hkt] at hkv
      rcases mem_setdefaultA _ _ _ _ hkv with h | h
      · have := hinv.pdfm kv h
        omega
      · rw [h]
        omega

/-- Folding separated, DOI-carrying records keeps the invariant. -/
theorem sep_fold (ratio : String → String → ℚ) (thr : ℚ) :
    ∀ (todo done : List Paper) (st : DedupState),
      SepInv done st →
      (∀ p ∈ todo, (normalize_doi p.doi).isSome) →
      (∀ q ∈ done, ∀ p ∈ todo, PaperSep q p) →
      todo.Pairwise PaperSep →
      SepInv (done ++ todo) (todo.foldl (process_paper ratio thr) st) := by
  intro todo
  induction todo with
  | nil =>
    intro done st hinv _ _ _
    simpa using hinv
  | cons p rest ih =>
    intro done st hinv hdois hcross hpw
    rw [List.foldl_cons]
    obtain ⟨hp_rest, hpw_rest⟩ := List.pairwise_cons.mp hpw
    have hstep := sep_step ratio thr done st p hinv (hdois p (List.mem_cons_self _ _))
      (fun q hq => hcross q hq p (List.mem_cons_self _ _))
    have hrec := ih (done ++ [p]) _ hstep
      (fun q hq => hdois q (List.mem_cons_of_mem _ hq))
      (by
        intro q hq r hr
        rcases List.mem_append.mp hq with h | h
        · exact hcross q h r (List.mem_cons_of_mem _ hr)
        · rw [List.mem_singleton.mp h]
          exact hp_rest r hr)
      hpw_rest
    simpa [List.append_assoc] using hrec

/-- The cluster builder on separated, DOI-carrying records. -/
theorem dedup_sep (ratio : String → String → ℚ) (thr : ℚ) (ps : List Paper)
    (hdoi : ∀ p ∈ ps, (normalize_doi p.doi).isSome)
    (hpw : ps.Pairwise PaperSep) :
    SepInv ps (dedup_state ratio thr ps) := by
  have hinit : SepInv [] {} := by
    refine ⟨rfl, ?_, ?_, ?_, ?_, ?_, ?_⟩ <;> intro kv hkv <;> simp at hkv
  have h := sep_fold ratio thr ps [] {} hinit hdoi (by intro q hq; simp at hq) hpw
  simpa using h

/-- C1 counterexample: two records with identical `title_norm`, the same
year and first author, but distinct present normalized DOIs are placed in
the same cluster — the composite-key path has no DOI-conflict guard. -/
theorem dedup_doi_conflict_counterexample :
    (dedup_groups (fun _ _ => 0) (mkRat 95 100)
        [{ paper_id := some "1", title := some "Same Title", year := some "2020",
           authors := some "Alice", doi := some "10.1/a" },
         { paper_id := some "2", title := some "Same Title", year := some "2020",
           authors := some "Alice", doi := some "10.1/b" }]).map
      (fun g => g.papers.map (fun p => p.paper_id)) = [[some "1", some "2"]]
      ∧ (deduplicate_papers (fun _ _ => 0) (mkRat 95 100)
        [{ paper_id := some "1", title := some "Same Title", year := some "2020",
           authors := some "Alice", doi := some "10.1/a" },
         { paper_id := some "2", title := some "Same Title", year := some "2020",
           authors := some "Alice", doi := some "10.1/b" }]).2.groups = 1 := by
  constructor <;> decide

/-- C1 amended: the DOI-conflict guard protects the exact-title, fuzzy-title
and PDF-URL paths but not the composite-key or external-id paths, so no
pair-local guarantee exists — an equal composite key merges the pair
despite the conflict (see the counterexample), and a DOI-less third record
sharing the title and an external id can bridge the pair transitively.
What holds: within any input whose records all carry a present normalized
DOI and are pairwise separated (pairwise-distinct normalized DOIs, no
shared external ids, pairwise-different composite title|year|first-author
keys), two records with distinct normalized DOIs never share a cluster. -/
theorem dedup_distinct_doi_pair (ratio : String → String → ℚ) (thr : ℚ)
    (ps : List Paper) (A B : Paper)
    (hdoi : ∀ p ∈ ps, (normalize_doi p.doi).isSome)
    (hsep : ps.Pairwise PaperSep)
    (hA : A ∈ ps) (hB : B ∈ ps)
    (hne : normalize_doi A.doi ≠ normalize_doi B.doi) :
    ∀ g ∈ dedup_groups ratio thr ps, ¬ (A ∈ g.papers ∧ B ∈ g.papers) := by
  intro g hg
  rintro ⟨hAg, hBg⟩
  have hinv := dedup_sep ratio thr ps hdoi hsep
  obtain ⟨⟨i, hi⟩, hget⟩ := List.mem_iff_get.mp hg
  have hi' : i < ps.length := by
    have := hinv.glen
    unfold dedup_groups at hi
    omega
  obtain ⟨hpap, _⟩ := hinv.gget i hi'
  have hgetD : (dedup_groups ratio thr ps).getD i {} = g := by
    rw [getD_lt _ i {} hi]
    exact hget
  unfold dedup_groups at hgetD
  rw [hgetD] at hpap
  rw [hpap] at hAg hBg
  have hAB : A = B := (List.mem_singleton.mp hAg).trans (List.mem_singleton.mp hBg).symm
  exact hne (by rw [hAB])

/-- Paper used by the pair-theorem witness: `10.1/a`, year 2021. -/
def wPairA : Paper :=
  { paper_id := some "1", title := some "Same Title", year := some "2021",
    authors := some "Alice", doi := some "10.1/a" }

/-- Paper used by the pair-theorem witness: `10.1/b`, year 2022. -/
def wPairB : Paper :=
  { paper_id := some "2", title := some "Same Title", year := some "2022",
    authors := some "Alice", doi := some "10.1/b" }

/-- Witness for the amended pair theorem: a separated two-record input with
the same title, distinct DOIs and different years — the two records land
in different clusters. -/
theorem dedup_distinct_doi_pair_witness :
    ¬ (wPairA ∈ ((dedup_groups (fun _ _ => 0) (mkRat 95 100)
          [wPairA, wPairB]).getD 0 {}).papers
        ∧ wPairB ∈ ((dedup_groups (fun _ _ => 0) (mkRat 95 100)
          [wPairA, wPairB]).getD 0 {}).papers) :=
  dedup_distinct_doi_pair (fun _ _ => 0) (mkRat 95 100) [wPairA, wPairB] wPairA wPairB
    (by decide)
    (by
      refine List.pairwise_cons.mpr ⟨?_, List.pairwise_singleton _ _⟩
      intro b hb
      rw [List.mem_singleton.mp hb]
      refine ⟨?_, by decide, ?_⟩
      · intro a b ha hb2 hab
        refine (by decide : normalize_doi wPairA.doi ≠ normalize_doi wPairB.doi) ?_
        rw [ha, hb2, hab]
      · intro s hs hc
        exact (by decide : (paper_keys wPairA).tya ≠ (paper_keys wPairB).tya)
          (hc.trans hs.symm))
    (by decide) (by decide) (by decide)
    ((dedup_groups (fun _ _ => 0) (mkRat 95 100) [wPairA, wPairB]).getD 0 {})
    (by decide)

/-- C5 counterexample: `deduplicate_papers` is not idempotent.  Merging two
same-DOI records from different queries yields `all_queries = [q1, q2]`;
running the function again on its own (single-record) output recomputes
`all_queries` from the surviving record's own `query` field, collapsing it
to `[q1]`, so the output list changes. -/
theorem dedup_idempotence_counterexample :
    (deduplicate_papers (fun _ _ => 0) (mkRat 95 100)
        (deduplicate_papers (fun _ _ => 0) (mkRat 95 100)
          [{ paper_id := some "1", title := some "T", doi := some "10.1/a",
             query := some "q1" },
           { paper_id := some "2", title := some "T", doi := some "10.1/a",
             query := some "q2" }]).1).1
      ≠ (deduplicate_papers (fun _ _ => 0) (mkRat 95 100)
          [{ paper_id := some "1", title := some "T", doi := some "10.1/a",
             query := some "q1" },
           { paper_id := some "2", title := some "T", doi := some "10.1/a",
             query := some "q2" }]).1
      ∧ (deduplicate_papers (fun _ _ => 0) (mkRat 95 100)
          [{ paper_id := some "1", title := some "T", doi := some "10.1/a",
             query := some "q1" },
           { paper_id := some "2", title := some "T", doi := some "10.1/a",
             query := some "q2" }]).1.map (fun p => p.all_queries)
        = [some ["q1", "q2"]]
      ∧ (deduplicate_papers (fun _ _ => 0) (mkRat 95 100)
          (deduplicate_papers (fun _ _ => 0) (mkRat 95 100)
            [{ paper_id := some "1", title := some "T", doi := some "10.1/a",
               query := some "q1" },
             { paper_id := some "2", title := some "T", doi := some "10.1/a",
               query := some "q2" }]).1).1.map (fun p => p.all_queries)
        = [some ["q1"]] := by
  refine ⟨?_, ?_, ?_⟩ <;> decide

/-- C5 amended: rerunning changes provenance fields in general (see the
counterexample), but the cluster structure is stable on a separated list:
when every record carries a normalized DOI, the DOIs are pairwise
distinct, the records share no external ids and their composite keys
differ pairwise, every record gets its own singleton cluster — the group
and output counts equal the input length. -/
theorem dedup_distinct_doi_singletons (ratio : String → String → ℚ) (thr : ℚ)
    (ps : List Paper)
    (hdoi : ∀ p ∈ ps, (normalize_doi p.doi).isSome)
    (hsep : ps.Pairwise PaperSep) :
    (deduplicate_papers ratio thr ps).2.groups = ps.length
      ∧ (deduplicate_papers ratio thr ps).2.output = ps.length
      ∧ ∀ g ∈ dedup_groups ratio thr ps, ∃ p ∈ ps, g.papers = [p] := by
  by_cases hps : ps = []
  · subst hps
    refine ⟨rfl, rfl, ?_⟩
    intro g hg
    simp [dedup_groups, dedup_state] at hg
  · have hinv := dedup_sep ratio thr ps hdoi hsep
    have hmem : ∀ g ∈ dedup_groups ratio thr ps, ∃ p ∈ ps, g.papers = [p] := by
      intro g hg
      obtain ⟨⟨i, hi⟩, hget⟩ := List.mem_iff_get.mp hg
      have hi' : i < ps.length := by
        have := hinv.glen
        unfold dedup_groups at hi
        omega
      obtain ⟨hpap, _⟩ := hinv.gget i hi'
      refine ⟨ps.getD i {}, getD_mem ps i {} hi', ?_⟩
      unfold dedup_groups at hget hi
      rw [← getD_lt _ i {} hi] at hget
      rw [hget] at hpap
      exact hpap
    refine ⟨?_, ?_, hmem⟩
    · simp only [deduplicate_papers]
      rw [if_neg hps]
      exact hinv.glen
    · simp only [deduplicate_papers]
      rw [if_neg hps]
      simpa using hinv.glen

/-- Papers used by the singleton-theorem witness. -/
def wSingA : Paper :=
  { paper_id := some "1", title := some "Alpha", year := some "2020",
    authors := some "Ann", doi := some "10.1/a", query := some "q1" }

/-- Second paper of the singleton-theorem witness. -/
def wSingB : Paper :=
  { paper_id := some "2", title := some "Beta", year := some "2021",
    authors := some "Bob", doi := some "10.1/b", query := some "q2" }

/-- Witness for the singleton theorem on a two-record separated list. -/
theorem dedup_distinct_doi_singletons_witness :
    (deduplicate_papers (fun _ _ => 0) (mkRat 95 100) [wSingA, wSingB]).2.groups = 2
      ∧ (deduplicate_papers (fun _ _ => 0) (mkRat 95 100) [wSingA, wSingB]).2.output = 2
      ∧ ∀ g ∈ dedup_groups (fun _ _ => 0) (mkRat 95 100) [wSingA, wSingB],
          ∃ p ∈ [wSingA, wSingB], g.papers = [p] :=
  dedup_distinct_doi_singletons _ _ _ (by decide)
    (by
      refine List.pairwise_cons.mpr ⟨?_, List.pairwise_singleton _ _⟩
      intro b hb
      rw [List.mem_singleton.mp hb]
      refine ⟨?_, by decide, ?_⟩
      · intro a b ha hb2
        have ea : normalize_doi wSingA.doi = some "10.1/a" := by decide
        have eb : normalize_doi wSingB.doi = some "10.1/b" := by decide
        rw [ea] at ha
        rw [eb] at hb2
        injection ha with ha2
        injection hb2 with hb3
        rw [← ha2, ← hb3]
        decide
      · intro s hs
        have es : (paper_keys wSingB).tya = some "beta|2021|bob" := by decide
        rw [es] at hs
        injection hs with hs2
        rw [← hs2]
        decide)

/-- Running similarity of the fuzzy scan: the fold of `max` over the
ratios of the clusters it does not skip. -/
theorem fuzzyBest_snd (ratio : String → String → ℚ) (t : String) (dn : Option String) :
    ∀ (gs : List PaperGroup) (i0 : ℕ) (acc : Option ℕ × ℚ),
      (fuzzyBest ratio t dn gs i0 acc).2
        = (gs.filterMap (groupRatio ratio t dn)).foldl max acc.2 := by
  intro gs
  induction gs with
  | nil => intro i0 acc; rfl
  | cons g rest ih =>
    intro i0 acc
    rw [show fuzzyBest ratio t dn (g :: rest) i0 acc
        = fuzzyBest ratio t dn rest (i0 + 1)
            (match groupRatio ratio t dn g with
             | none => acc
             | some r => if acc.2 < r then (some i0, r) else acc) from rfl]
    cases hρ : groupRatio ratio t dn g with
    | none => simp only [List.filterMap_cons, hρ, ih]
    | some r =>
      simp only [List.filterMap_cons, hρ, List.foldl_cons, ih]
      congr 1
      rcases lt_or_ge acc.2 r with h | h
      · rw [if_pos h]
        exact (max_eq_right (le_of_lt h)).symm
      · rw [if_neg (not_lt.mpr h)]
        exact (max_eq_left h).symm

/-- Winner of the fuzzy scan: either nothing beat the accumulator, or the
result records the earliest cluster attaining the final best ratio. -/
theorem fuzzyBest_fst (ratio : String → String → ℚ) (t : String) (dn : Option String) :
    ∀ (gs : List PaperGroup) (i0 : ℕ) (acc : Option ℕ × ℚ),
      (fuzzyBest ratio t dn gs i0 acc = acc
        ∧ ∀ j g r, gs.get? j = some g → groupRatio ratio t dn g = some r → r ≤ acc.2)
      ∨ (∃ j g r, gs.get? j = some g ∧ groupRatio ratio t dn g = some r
          ∧ r = (fuzzyBest ratio t dn gs i0 acc).2
          ∧ (fuzzyBest ratio t dn gs i0 acc).1 = some (i0 + j)
          ∧ acc.2 < (fuzzyBest ratio t dn gs i0 acc).2
          ∧ ∀ j' g' r', j' < j → gs.get? j' = some g' →
              groupRatio ratio t dn g' = some r' →
              r' < (fuzzyBest ratio t dn gs i0 acc).2) := by
  intro gs
  induction gs with
  | nil =>
    intro i0 acc
    left
    exact ⟨rfl, by intro j g r hj; simp at hj⟩
  | cons g rest ih =>
    intro i0 acc
    have hexp : fuzzyBest ratio t dn (g :: rest) i0 acc
        = fuzzyBest ratio t dn rest (i0 + 1)
            (match groupRatio ratio t dn g with
             | none => acc
             | some r => if acc.2 < r then (some i0, r) else acc) := rfl
    cases hρ : groupRatio ratio t dn g with
    | none =>
      rw [hexp, hρ]
      rcases ih (i0 + 1) acc with ⟨heq, hbound⟩ | ⟨j, g2, r2, hg2, hr2, hr2eq, hout1, hlt, hstrict⟩
      · left
        refine ⟨heq, ?_⟩
        intro j g2 r hj hr
        cases j with
        | zero =>
          rw [show (g :: rest).get? 0 = some g from rfl] at hj
          injection hj with hj2
          rw [← hj2] at hr
          rw [hρ] at hr
          exact Option.noConfusion hr
        | succ j => exact hbound j g2 r hj hr
      · right
        refine ⟨j + 1, g2, r2, hg2, hr2, hr2eq, ?_, hlt, ?_⟩
        · rw [hout1]
          congr 1
          omega
        · intro j' g' r' hj' hg' hr'
          cases j' with
          | zero =>
            rw [show (g :: rest).get? 0 = some g from rfl] at hg'
            injection hg' with hg2'
            rw [← hg2'] at hr'
            rw [hρ] at hr'
            exact Option.noConfusion hr'
          | succ j' => exact hstrict j' g' r' (by omega) hg' hr'
    | some r =>
      rw [hexp, hρ]
      dsimp only
      by_cases hlt0 : acc.2 < r
      · rw [if_pos hlt0]
        rcases ih (i0 + 1) (some i0, r) with ⟨heq, hbound⟩ | ⟨j, g2, r2, hg2, hr2, hr2eq, hout1, hlt, hstrict⟩
        · right
          refine ⟨0, g, r, rfl, hρ, ?_, ?_, ?_, ?_⟩
          · rw [heq]
          · rw [heq]
            simp
          · rw [heq]
            exact hlt0
          · intro j' g' r' hj' _ _
            omega
        · right
          refine ⟨j + 1, g2, r2, hg2, hr2, hr2eq, ?_, ?_, ?_⟩
          · rw [hout1]
            congr 1
            omega
          · exact lt_trans hlt0 hlt
          · intro j' g' r' hj' hg' hr'
            cases j' with
            | zero =>
              rw [show (g :: rest).get? 0 = some g from rfl] at hg'
              injection hg' with hg2'
              rw [← hg2'] at hr'
              rw [hρ] at hr'
              injection hr' with hr3
              rw [← hr3]
              exact hlt
            | succ j' => exact hstrict j' g' r' (by omega) hg' hr'
      · rw [if_neg hlt0]
        rcases ih (i0 + 1) acc with ⟨heq, hbound⟩ | ⟨j, g2, r2, hg2, hr2, hr2eq, hout1, hlt, hstrict⟩
        · left
          refine ⟨heq, ?_⟩
          intro j g2 r2 hj hr2
          cases j with
          | zero =>
            rw [show (g :: rest).get? 0 = some g from rfl] at hj
            injection hj with hj2
            rw [← hj2] at hr2
            rw [hρ] at hr2
            injection hr2 with hr3
            rw [← hr3]
            exact not_lt.mp hlt0
          | succ j => exact hbound j g2 r2 hj hr2
        · right
          refine ⟨j + 1, g2, r2, hg2, hr2, hr2eq, ?_, hlt, ?_⟩
          · rw [hout1]
            congr 1
            omega
          · intro j' g' r' hj' hg' hr'
            cases j' with
            | zero =>
              rw [show (g :: rest).get? 0 = some g from rfl] at hg'
              injection hg' with hg2'
              rw [← hg2'] at hr'
              rw [hρ] at hr'
              injection hr' with hr3
              rw [← hr3]
              exact lt_of_le_of_lt (not_lt.mp hlt0) hlt
            | succ j' => exact hstrict j' g' r' (by omega) hg' hr'

/-- C6: with a positive threshold, the fuzzy matcher returns a cluster
exactly when the highest similarity over the clusters passing the
DOI-conflict guard reaches the threshold — a best ratio exactly at the
threshold merges and one strictly below does not; the returned cluster is
the earliest attaining the best ratio; and a low-confidence warning is
produced exactly when the best ratio lies in [threshold, threshold+0.02),
in which case the match is still returned. -/
theorem fuzzy_threshold_boundary (ratio : String → String → ℚ) (thr : ℚ)
    (gs : List PaperGroup) (t : String) (dn : Option String) (hthr : 0 < thr) :
    ((find_fuzzy_title_group ratio thr gs t dn).1 = none
        ↔ best_fuzzy_ratio ratio t dn gs < thr)
      ∧ (∀ i, (find_fuzzy_title_group ratio thr gs t dn).1 = some i →
          ∃ g, gs.get? i = some g
            ∧ groupRatio ratio t dn g = some (best_fuzzy_ratio ratio t dn gs)
            ∧ ∀ j g' r', j < i → gs.get? j = some g' →
                groupRatio ratio t dn g' = some r' →
                r' < best_fuzzy_ratio ratio t dn gs)
      ∧ ((find_fuzzy_title_group ratio thr gs t dn).2.isSome
          ↔ (thr ≤ best_fuzzy_ratio ratio t dn gs
              ∧ best_fuzzy_ratio ratio t dn gs < thr + 2 / 100))
      ∧ ((find_fuzzy_title_group ratio thr gs t dn).2.isSome
          → (find_fuzzy_title_group ratio thr gs t dn).1.isSome) := by
  have hsnd : (fuzzyBest ratio t dn gs 0 (none, 0)).2 = best_fuzzy_ratio ratio t dn gs := by
    rw [fuzzyBest_snd]
    rfl
  have hfind : find_fuzzy_title_group ratio thr gs t dn
      = (if thr ≤ best_fuzzy_ratio ratio t dn gs then
          ((fuzzyBest ratio t dn gs 0 (none, 0)).1,
            if best_fuzzy_ratio ratio t dn gs < thr + 2 / 100 then
              some (best_fuzzy_ratio ratio t dn gs, (⟨t.data.take 80⟩ : String))
            else none)
        else (none, none)) := by
    unfold find_fuzzy_title_group
    dsimp only
    rw [hsnd]
  by_cases hc : thr ≤ best_fuzzy_ratio ratio t dn gs
  · have hpos : 0 < best_fuzzy_ratio ratio t dn gs := lt_of_lt_of_le hthr hc
    rcases fuzzyBest_fst ratio t dn gs 0 (none, 0) with ⟨heq, _⟩ |
        ⟨j, g, r, hj, hg, hreq, hbr1, _, hstrict⟩
    · exfalso
      have : best_fuzzy_ratio ratio t dn gs = 0 := by
        rw [← hsnd, heq]
      rw [this] at hpos
      exact lt_irrefl 0 hpos
    · rw [hsnd] at hreq
      have hstrict' : ∀ j' g' r', j' < j → gs.get? j' = some g' →
          groupRatio ratio t dn g' = some r' → r' < best_fuzzy_ratio ratio t dn gs := by
        intro j' g' r' hj' hg' hr'
        rw [← hsnd]
        exact hstrict j' g' r' hj' hg' hr'
      rw [hfind, if_pos hc]
      refine ⟨?_, ?_, ?_, ?_⟩
      · constructor
        · intro h
          rw [hbr1] at h
          exact Option.noConfusion h
        · intro h
          exact absurd hc (not_le.mpr h)
      · intro i hi
        rw [hbr1] at hi
        injection hi with hi2
        have hij : i = j := by omega
        subst hij
        refine ⟨g, hj, ?_, hstrict'⟩
        rw [hg, hreq]
      · constructor
        · intro h
          refine ⟨hc, ?_⟩
          by_contra hnot
          rw [if_neg hnot] at h
          simp at h
        · rintro ⟨_, h2⟩
          rw [if_pos h2]
          rfl
      · intro _
        rw [hbr1]
        rfl
  · rw [hfind, if_neg hc]
    refine ⟨?_, ?_, ?_, ?_⟩
    · exact ⟨fun _ => not_le.mp hc, fun _ => rfl⟩
    · intro i hi
      exact Option.noConfusion hi
    · constructor
      · intro h
        simp at h
      · rintro ⟨h1, _⟩
        exact absurd h1 hc
    · intro h
      simp at h

/-- Witness for the fuzzy-boundary theorem at threshold 1 over no
clusters. -/
theorem fuzzy_threshold_boundary_witness :
    ((find_fuzzy_title_group (fun _ _ => 0) 1 [] "x" none).1 = none
        ↔ best_fuzzy_ratio (fun _ _ => 0) "x" none [] < 1)
      ∧ (∀ i, (find_fuzzy_title_group (fun _ _ => 0) 1 [] "x" none).1 = some i →
          ∃ g, ([] : List PaperGroup).get? i = some g
            ∧ groupRatio (fun _ _ => 0) "x" none g
              = some (best_fuzzy_ratio (fun _ _ => 0) "x" none [])
            ∧ ∀ j g' r', j < i → ([] : List PaperGroup).get? j = some g' →
                groupRatio (fun _ _ => 0) "x" none g' = some r' →
                r' < best_fuzzy_ratio (fun _ _ => 0) "x" none [])
      ∧ ((find_fuzzy_title_group (fun _ _ => 0) 1 [] "x" none).2.isSome
          ↔ (1 ≤ best_fuzzy_ratio (fun _ _ => 0) "x" none []
              ∧ best_fuzzy_ratio (fun _ _ => 0) "x" none [] < 1 + 2 / 100))
      ∧ ((find_fuzzy_title_group (fun _ _ => 0) 1 [] "x" none).2.isSome
          → (find_fuzzy_title_group (fun _ _ => 0) 1 [] "x" none).1.isSome) :=
  fuzzy_threshold_boundary (fun _ _ => 0) 1 [] "x" none (by norm_num)

/-- Reading back the updated cell of an in-range `set`. -/
theorem getD_set_self {α : Type} : ∀ (l : List α) (i : ℕ) (x d : α), i < l.length →
    (l.set i x).getD i d = x := by
  intro l
  induction l with
  | nil => intro i x d h; simp at h
  | cons a l ih =>
    intro i x d h
    cases i with
    | zero => rfl
    | succ i => exact ih i x d (by simpa using h)

/-- C10: in the deduplication cascade, when the DOI, external-id,
composite-key, exact-title and fuzzy-title searches all miss, the cascade
result is exactly the PDF-URL step; if the normalized PDF URL is indexed
for an existing cluster whose DOI set does not conflict, the record joins
that cluster; and if the PDF step also misses, a new singleton cluster
holding just the record is appended. -/
theorem pdf_url_match_last (ratio : String → String → ℚ) (thr : ℚ)
    (st : DedupState) (p : Paper)
    (h1 : ∀ d, tval (paper_keys p).doi = some d → alookup st.doiMap d = none)
    (h2 : ∀ e ∈ (paper_keys p).ext_ids, alookup st.extMap e = none)
    (h3 : ∀ s1, tval (paper_keys p).tya = some s1 → alookup st.tyaMap s1 = none)
    (h4 : ∀ t c, tval (paper_keys p).title = some t → alookup st.titleMap t = some c →
        doi_conflict (st.groups.getD c {}) (paper_keys p).doi = true)
    (h5 : ∀ t, tval (paper_keys p).title = some t →
        (find_fuzzy_title_group ratio thr st.groups t (paper_keys p).doi).1 = none) :
    (select_group ratio thr st (paper_keys p)).1 = pdf_step st (paper_keys p)
      ∧ (∀ u c, tval (paper_keys p).pdf = some u →
          alookup st.pdfMap u = some c →
          doi_conflict (st.groups.getD c {}) (paper_keys p).doi = false →
          c < st.groups.length →
          (select_group ratio thr st (paper_keys p)).1 = some c
            ∧ ((process_paper ratio thr st p).groups.getD c {}).papers
              = (st.groups.getD c {}).papers ++ [p])
      ∧ (pdf_step st (paper_keys p) = none →
          (process_paper ratio thr st p).groups.length = st.groups.length + 1
            ∧ ((process_paper ratio thr st p).groups.getD st.groups.length {}).papers
              = [p]) := by
  have hmiss := select_group_miss ratio thr st (paper_keys p) h1 h2 h3 h4 h5
  refine ⟨hmiss, ?_, ?_⟩
  · intro u c hu hl hcf hclen
    have hps : pdf_step st (paper_keys p) = some c := by
      unfold pdf_step
      rw [hu]
      dsimp only
      rw [hl]
      dsimp only
      rw [hcf]
      rfl
    have hsel1 : (select_group ratio thr st (paper_keys p)).1 = some c :=
      hmiss.trans hps
    refine ⟨hsel1, ?_⟩
    unfold process_paper
    dsimp only
    rw [hsel1]
    dsimp only
    rw [(add_to_group_spec _ c p (paper_keys p)).1]
    rw [getD_set_self _ c _ _ hclen]
    rw [(group_update_spec _ p (paper_keys p)).1]
  · intro hpdf
    have hsel0 : (select_group ratio thr st (paper_keys p)).1 = none :=
      hmiss.trans hpdf
    rw [process_paper_fresh ratio thr st p hsel0]
    rw [(add_to_group_spec _ _ p (paper_keys p)).1]
    dsimp only
    refine ⟨?_, ?_⟩
    · simp
    · rw [set_append_length, getD_append_length, getD_append_length]
      rw [(group_update_spec _ p (paper_keys p)).1]
      rfl

/-- Input record for the PDF-step witness: no DOI, title, year, authors or
external ids, only a PDF URL differing from the indexed one by case. -/
def wPdfP : Paper := { paper_id := some "9", pdf_url := some "https://X.org/a" }

/-- A member of the pre-existing cluster of the PDF-step witness. -/
def wPdfQ : Paper := { paper_id := some "1" }

/-- The pre-existing cluster of the PDF-step witness. -/
def wPdfG : PaperGroup := { papers := [wPdfQ] }

/-- Cluster-builder state of the PDF-step witness: one cluster with no
recorded DOI, and its normalized PDF URL indexed. -/
def wPdfSt : DedupState := { groups := [wPdfG], pdfMap := [("https://x.org/a", 0)] }

/-- Witness for the PDF-step theorem on a concrete state where every
earlier key is absent. -/
theorem pdf_url_match_last_witness :
    (select_group (fun _ _ => 0) 1 wPdfSt (paper_keys wPdfP)).1
        = pdf_step wPdfSt (paper_keys wPdfP)
      ∧ (∀ u c, tval (paper_keys wPdfP).pdf = some u →
          alookup wPdfSt.pdfMap u = some c →
          doi_conflict (wPdfSt.groups.getD c {}) (paper_keys wPdfP).doi = false →
          c < wPdfSt.groups.length →
          (select_group (fun _ _ => 0) 1 wPdfSt (paper_keys wPdfP)).1 = some c
            ∧ ((process_paper (fun _ _ => 0) 1 wPdfSt wPdfP).groups.getD c {}).papers
              = (wPdfSt.groups.getD c {}).papers ++ [wPdfP])
      ∧ (pdf_step wPdfSt (paper_keys wPdfP) = none →
          (process_paper (fun _ _ => 0) 1 wPdfSt wPdfP).groups.length
              = wPdfSt.groups.length + 1
            ∧ ((process_paper (fun _ _ => 0) 1 wPdfSt wPdfP).groups.getD
                wPdfSt.groups.length {}).papers = [wPdfP]) :=
  pdf_url_match_last (fun _ _ => 0) 1 wPdfSt wPdfP
    (by
      intro d h
      rw [show tval (paper_keys wPdfP).doi = none from by decide] at h
      exact Option.noConfusion h)
    (by decide)
    (by
      intro s1 h
      rw [show tval (paper_keys wPdfP).tya = none from by decide] at h
      exact Option.noConfusion h)
    (by
      intro t c ht hc
      rw [show tval (paper_keys wPdfP).title = none from by decide] at ht
      exact Option.noConfusion ht)
    (by
      intro t ht
      rw [show tval (paper_keys wPdfP).title = none from by decide] at ht
      exact Option.noConfusion ht)
